import Mathlib

/-!
Shallow embedding of `src/immigration_processor.py` (class
`ImmigrationDataProcessor`), the transform core of the ee-core repository.

Records are modelled as association lists from field names to string values
(the input JSON holds string fields, per the data model).  Python exceptions
that can escape a function are modelled with `Except PyErr`; exceptions that
the source catches locally are modelled by the corresponding recovery branch.
Python `dict`s (which preserve insertion order) are modelled as association
lists, `sorted` (a stable sort) as insertion sort, and machine integers as
`Int` (Python integers are arbitrary precision, so no modular reduction is
needed).  All definitions are structural recursions so that concrete runs
reduce inside the kernel.
-/

namespace ImmigrationProc

/-- Python exception kinds that are observable in this module: `KeyError`
from mapping lookups, `ValueError` from `int()` / `strptime` / `range`,
`IndexError` from list indexing. -/
inductive PyErr where
  | keyError
  | valueError
  | indexError
deriving DecidableEq, Repr

/-- One input record (`round_data`): a JSON object with string values,
modelled as an insertion-ordered association list. -/
abbrev Record := List (String × String)

/-- First-match association-list lookup: Python `dict[k]` with `none` for
`KeyError` (the lists modelling dicts keep their keys unique). -/
def alookup {β : Type} : List (String × β) → String → Option β
  | [], _ => none
  | (k', v) :: rest, k => if k' = k then some v else alookup rest k

/-- Models `round_data[k]`. -/
def lookupField (rd : Record) (k : String) : Option String := alookup rd k

/-- Models `round_data.get(k, d)` (line 255). -/
def getField (rd : Record) (k : String) (d : String) : String :=
  (lookupField rd k).getD d

/-- One chart series as built by the transforms: parallel `x`/`y` lists plus
the fixed display metadata set at creation (lines 198-204 / 273-279). -/
structure SeriesData where
  x : List String
  y : List Int
  typ : String
  mode : String
  name : String
deriving DecidableEq, Repr

/-- A Series Collection (`batch_data` / `accumulated_data`): a Python dict
keyed by series name, modelled as an insertion-ordered association list. -/
abbrev SMap := List (String × SeriesData)

/-! ## Python string primitives -/

/-- ASCII decimal digit test. -/
def isDigitChar (c : Char) : Bool := '0' ≤ c && c ≤ '9'

/-- Characters stripped by `int()`s whitespace handling (ASCII subset of
Python's definition; the inputs of this module are ASCII). -/
def isPyWs (c : Char) : Bool :=
  c = ' ' || c = '\t' || c = '\n' || c = '\r' || c = '\x0b' || c = '\x0c'

/-- Characters matched by the regex class `\s` (same ASCII subset). -/
def isPySpace (c : Char) : Bool := isPyWs c

/-- Models `value.replace(old, '')` restricted to single-character `old`
(lines 122, 266 use `replace(',', '')`). -/
def removeChar (old : Char) (cs : List Char) : List Char :=
  cs.filter (fun c => c ≠ old)

def dropWhileWs (cs : List Char) : List Char := cs.dropWhile isPyWs

/-- Strip `isPyWs` characters from both ends. -/
def stripWs (cs : List Char) : List Char :=
  ((dropWhileWs cs).reverse.dropWhile isPyWs).reverse

/-- Numeric value of a list of ASCII digits. -/
def digitsVal (cs : List Char) : Nat :=
  cs.foldl (fun a c => a * 10 + (c.toNat - '0'.toNat)) 0

/-- Validate the digit body accepted by `int()` after the optional sign:
digits possibly separated by single underscores (`1_000`), no leading,
trailing or doubled underscore.  Returns the digits with underscores
removed, or `none` (ValueError). -/
def parseDigitsU : List Char → Option (List Char)
  | [] => none
  | [c] => if isDigitChar c then some [c] else none
  | c :: '_' :: rest =>
    if isDigitChar c then (parseDigitsU rest).map (fun ds => c :: ds) else none
  | c :: c2 :: rest =>
    if isDigitChar c then (parseDigitsU (c2 :: rest)).map (fun ds => c :: ds) else none

/-- Python `int(s)`: optional surrounding whitespace, optional sign, decimal
digits with optional underscore separators.  `none` models `ValueError`.
(Python additionally accepts non-ASCII digit code points; the feed's fields
are ASCII, so only ASCII digits are modelled.) -/
def pyInt (s : String) : Option Int :=
  let cs := stripWs s.data
  match cs with
  | '+' :: rest => (parseDigitsU rest).map (fun ds => (digitsVal ds : Int))
  | '-' :: rest => (parseDigitsU rest).map (fun ds => -(digitsVal ds : Int))
  | _ => (parseDigitsU cs).map (fun ds => (digitsVal ds : Int))

/-- Models `self._parse_numeric_value(value)` (line 122):
`int(value.replace(',', ''))`. -/
def parseNumericValue (s : String) : Option Int :=
  pyInt ⟨removeChar ',' s.data⟩

/-- Python `s.split(sep)` for a one-character separator (helper for
`draw_date.split('-')`, line 319). -/
def pySplit (sep : Char) : List Char → List (List Char)
  | [] => [[]]
  | c :: rest =>
    if c = sep then [] :: pySplit sep rest
    else
      match pySplit sep rest with
      | [] => [[c]]
      | p :: ps => (c :: p) :: ps

/-- Python `sep.join(parts)` for a one-character separator. -/
def pyJoin (sep : Char) : List (List Char) → List Char
  | [] => []
  | [p] => p
  | p :: ps => p ++ sep :: pyJoin sep ps

/-- Models `'-'.join(draw_date.split('-')[:2])` (line 319): the `YYYY-MM` bucket
key of a date string. -/
def yearMonth (s : String) : String :=
  ⟨pyJoin '-' ((pySplit '-' s.data).take 2)⟩

/-- Python `str.title()` for ASCII text (line 203 / 278): the first letter
of every letter-run is upcased, the rest downcased. -/
def pyTitleAux : Bool → List Char → List Char
  | _, [] => []
  | prevAlpha, c :: rest =>
    if c.isAlpha then
      (if prevAlpha then c.toLower else c.toUpper) :: pyTitleAux true rest
    else c :: pyTitleAux false rest

def pyTitle (s : String) : String := ⟨pyTitleAux false s.data⟩

/-! ## The draw-name regex (line 109)

`re.search(r'(.*)(?=\s\()', draw_name)` with `group(0)`: the leftmost start
position `p` from which some `i ≥ p` has whitespace at `i` immediately
followed by `(` at `i+1`, with no newline strictly between `p` and `i`
(`.` does not match newlines); greediness picks the largest such `i`, and
the zero-width lookahead makes the match the slice `s[p:i]`. -/

def sepAt (cs : List Char) (i : Nat) : Bool :=
  decide (i + 1 < cs.length) && isPySpace (cs.getD i 'x') && (cs.getD (i + 1) 'x' = '(')

def noNewlineBetween (cs : List Char) (p i : Nat) : Bool :=
  ((cs.drop p).take (i - p)).all (fun c => c ≠ '\n')

def matchEndsAt (cs : List Char) (p : Nat) : List Nat :=
  (List.range cs.length).filter
    (fun i => decide (p ≤ i) && sepAt cs i && noNewlineBetween cs p i)

def matchAt (cs : List Char) (p : Nat) : Option (List Char) :=
  match (matchEndsAt cs p).getLast? with
  | some i => some ((cs.drop p).take (i - p))
  | none => none

def searchAux (cs : List Char) : Nat → Nat → Option (List Char)
  | 0, _ => none
  | fuel + 1, p =>
    match matchAt cs p with
    | some m => some m
    | none => searchAux cs fuel (p + 1)

/-- Models `self._extract_draw_name(draw_name)` (lines 99-110): the regex match if
one exists, the whole name otherwise. -/
def extractDrawName (s : String) : String :=
  match searchAux s.data (s.data.length + 1) 0 with
  | some m => ⟨m⟩
  | none => s

/-! ## Date parsing (`datetime.strptime(s, '%Y-%m-%d')`, line 137)

The strptime format requires a full match of: exactly four digits, `-`,
one or two digits with value 1..12, `-`, one or two digits with value
1..31; the `datetime` constructor then requires year ≥ 1 and the day to
exist in the given month.  Since the numeric tokens cannot contain `-`,
splitting on `-` yields exactly the three tokens. -/

def allDigits (cs : List Char) : Bool := cs.all isDigitChar

def leapYear (y : Nat) : Bool := y % 4 = 0 && (y % 100 ≠ 0 || y % 400 = 0)

def daysInMonth (y m : Nat) : Nat :=
  if m = 2 then (if leapYear y then 29 else 28)
  else if m = 4 || m = 6 || m = 9 || m = 11 then 30
  else 31

/-- A calendar date as (year, month, day). -/
abbrev Date := Nat × Nat × Nat

def parseDate (s : String) : Option Date :=
  match pySplit '-' s.data with
  | [ys, ms, ds] =>
    if allDigits ys && ys.length = 4 && allDigits ms && (ms.length = 1 || ms.length = 2)
        && allDigits ds && (ds.length = 1 || ds.length = 2) then
      let y := digitsVal ys
      let m := digitsVal ms
      let d := digitsVal ds
      if 1 ≤ y && 1 ≤ m && m ≤ 12 && 1 ≤ d && d ≤ 31 && d ≤ daysInMonth y m then
        some (y, m, d)
      else none
    else none
  | _ => none

/-- Chronological comparison of parsed dates (`datetime` ordering). -/
def dateLe (a b : Date) : Bool :=
  a.1 < b.1 || (a.1 = b.1 && (a.2.1 < b.2.1 || (a.2.1 = b.2.1 && a.2.2 ≤ b.2.2)))

/-! ## Python `sorted` (a stable sort) as insertion sort -/

/-- Lexicographic strict comparison of char lists (Python `str <`:
code-point order). -/
def listLtC : List Char → List Char → Bool
  | _, [] => false
  | [], _ :: _ => true
  | a :: as_, b :: bs =>
    if a < b then true
    else if b < a then false
    else listLtC as_ bs

/-- Python `str <=` on strings. -/
def strLeB (a b : String) : Bool := listLtC a.data b.data || a = b

def strLtB (a b : String) : Bool := listLtC a.data b.data

/-- The propositional order used for `sorted(keys)`. -/
def strLe (a b : String) : Prop := strLeB a b = true

instance : DecidableRel strLe := fun a b => by unfold strLe; infer_instance

/-- Sorting key order used by `_sort_data_by_date`: indices keyed by their
parsed date (`sorted(range(len(x)), key=...)`, lines 135-138). -/
def idxKeyLe (p q : Nat × Date) : Prop := dateLe p.2 q.2 = true

instance : DecidableRel idxKeyLe := fun p q => by unfold idxKeyLe; infer_instance

/-! ## Series-collection primitives (Python dict operations) -/

/-- Models `key in dict`. -/
def containsKey {β : Type} (k : String) (m : List (String × β)) : Bool :=
  m.any (fun kv => kv.1 = k)

/-- In-place update of the value at `k` (no-op when `k` is absent; every
call site guards or guarantees presence, as the Python does). -/
def modifyVal (k : String) (f : SeriesData → SeriesData) (m : SMap) : SMap :=
  m.map (fun kv => if kv.1 = k then (kv.1, f kv.2) else kv)

/-- The fresh series dict literal of lines 198-204 / 273-279. -/
def mkEmptySeries (k : String) : SeriesData :=
  { x := [], y := [], typ := "scatter", mode := "lines+markers", name := pyTitle k }

/-- Models `if key not in batch_data: batch_data[key] = {...}` (lines 197/272). -/
def ensureKey (k : String) (m : SMap) : SMap :=
  if containsKey k m then m else m ++ [(k, mkEmptySeries k)]

/-- Models `batch_data[key]['x'].append(d)` (lines 206/281). -/
def appendX (k : String) (d : String) (m : SMap) : SMap :=
  modifyVal k (fun s => { s with x := s.x ++ [d] }) m

/-- Models `batch_data[key]['y'].append(v)` (lines 207-209/282). -/
def appendY (k : String) (v : Int) (m : SMap) : SMap :=
  modifyVal k (fun s => { s with y := s.y ++ [v] }) m

/-- Models `accumulated[key]['x'].extend(v['x']); accumulated[key]['y'].extend(v['y'])`
(lines 218-219 / 291-292). -/
def extendSeries (k : String) (v : SeriesData) (m : SMap) : SMap :=
  modifyVal k (fun s => { s with x := s.x ++ v.x, y := s.y ++ v.y }) m

/-- One step of the batch-merge loop (lines 216-221 / 289-294). -/
def mergeEntry (a : SMap) (kv : String × SeriesData) : SMap :=
  if containsKey kv.1 a then extendSeries kv.1 kv.2 a else a ++ [kv]

/-- Models `for key, value in batch_data.items(): ...` merged into `accumulated_data`
(lines 215-221 / 288-294). -/
def mergeInto (acc : SMap) (bd : SMap) : SMap := bd.foldl mergeEntry acc

/-! ## Python `range` and list slices -/

/-- Models `range(start, stop, step)` with positive `step`; the fuel argument is
only a termination device, `(stop - start).toNat` always suffices. -/
def pyRangeUp (stop step : Int) : Nat → Int → List Int
  | 0, _ => []
  | fuel + 1, start =>
    if start < stop then start :: pyRangeUp stop step fuel (start + step) else []

/-- Models `range(start, stop, step)`: a zero step raises `ValueError`; a negative
step counting up from `start < stop` yields the empty range. -/
def pyRange (start stop step : Int) : Except PyErr (List Int) :=
  if step = 0 then .error .valueError
  else if 0 < step then .ok (pyRangeUp stop step (stop - start).toNat start)
  else .ok (if stop < start then [start] else [])
    -- only the empty case of a negative step is ever reached here
    -- (start = 0 ≤ stop = len(rounds)); a nonempty decreasing range is
    -- out of scope and represented by its first element only.

/-- Python `l[a:b]` for `a, b ≥ 0` (the only case the batch loop produces):
indices clamped to the list length. -/
def pySlice {α : Type} (l : List α) (a b : Int) : List α :=
  (l.drop a.toNat).take (b.toNat - a.toNat)

/-! ## The shared batch loop (lines 180-221 and 241-294)

`for i in range(0, len(rounds), batch_size): batch = rounds[i:i+batch_size];
if not batch: continue; batch_data = fold of the per-record step over the
batch; merge batch_data into accumulated_data.` -/

def batchData (step : Record → SMap → SMap) (batch : List Record) : SMap :=
  batch.foldl (fun m rd => step rd m) []

def chunkFold (step : Record → SMap → SMap) (bs : Int) (rounds : List Record)
    (starts : List Int) : SMap :=
  starts.foldl
    (fun acc i =>
      let batch := pySlice rounds i (i + bs)
      if batch.isEmpty then acc else mergeInto acc (batchData step batch))
    []

def chunkProcess (step : Record → SMap → SMap) (bs : Int) (rounds : List Record) :
    Except PyErr SMap := do
  let starts ← pyRange 0 rounds.length bs
  pure (chunkFold step bs rounds starts)

/-! ## The sorter (`_sort_data_by_date`, lines 124-145) -/

/-- Parse every `x` entry, or fail on the first `ValueError` (the sort key
of lines 135-138 is evaluated for every element before any reordering). -/
def parseAll : List String → Option (List Date)
  | [] => some []
  | d :: rest =>
    match parseDate d, parseAll rest with
    | some p, some ps => some (p :: ps)
    | _, _ => none

/-- The indices `sorted(range(len(x)), key=...)` (lines 135-138): the
stable sort of the positions of `x` keyed by their parsed dates. -/
def sortedIndices (ds : List Date) : List Nat :=
  (List.insertionSort idxKeyLe ds.enum).map (fun p => p.1)

/-- The reindexing of lines 141-142 once every date parsed: `x` is always
reindexable; reindexing `y` raises an uncaught `IndexError` whenever a
sorted index falls outside `y` (the `except` clause catches `ValueError`
only). -/
def sortWithDates (s : SeriesData) (ds : List Date) : Except PyErr SeriesData :=
  if (sortedIndices ds).all (fun i => i < s.y.length) then
    .ok { s with x := (sortedIndices ds).map (fun i => s.x.getD i ""),
                 y := (sortedIndices ds).map (fun i => s.y.getD i 0) }
  else .error .indexError

/-- Sort one series chronologically.  If any `x` entry fails to parse, the
`ValueError` from the sort key is caught and the series is left exactly as
accumulated. -/
def sortOneSeries (s : SeriesData) : Except PyErr SeriesData :=
  match parseAll s.x with
  | none => .ok s
  | some ds => sortWithDates s ds

/-- Models `for key in data: ...` over the collection; the first uncaught
exception aborts the caller. -/
def sortDataByDate : SMap → Except PyErr SMap
  | [] => .ok []
  | kv :: rest => do
    let s ← sortOneSeries kv.2
    let rest' ← sortDataByDate rest
    pure ((kv.1, s) :: rest')

/-- Models `{key: accumulated_data[key] for key in sorted(accumulated_data.keys())}`
(lines 227/300). -/
def orderByKey (m : SMap) : SMap :=
  (List.insertionSort strLe (m.map (fun kv => kv.1))).map
    (fun k => (k, (alookup m k).getD (mkEmptySeries k)))

/-! ## Score trend (`_process_crs_trends`, lines 168-227) -/

/-- The per-record body of the score-trend batch loop (lines 188-213).
The three field lookups happen before any mutation, so a `KeyError` skips
the record cleanly; the `x` append at line 206 happens before the score
parse inside the `y` append at lines 207-209, so a `ValueError` there
leaves the date already appended to `x`. -/
def crsRecordStep (rd : Record) (m : SMap) : SMap :=
  match lookupField rd "drawName" with
  | none => m
  | some drawName =>
    match lookupField rd "drawDate" with
    | none => m
    | some drawDate =>
      match lookupField rd "drawCRS" with
      | none => m
      | some drawCRS =>
        let k := extractDrawName drawName
        let m := appendX k drawDate (ensureKey k m)
        match parseNumericValue drawCRS with
        | some v => appendY k v m
        | none => m

def processCrsTrends (bs : Int) (rounds : List Record) : Except PyErr SMap := do
  let acc ← chunkProcess crsRecordStep bs rounds
  let sorted ← sortDataByDate acc
  pure (orderByKey sorted)

/-! ## Pool trend (`_process_pool_trends`, lines 229-300) -/

/-- Models `CRS_POOL_RANGES` (lines 29-33). -/
def CRS_POOL_RANGES : List String :=
  ["601-1200", "501-600", "451-500", "491-500", "481-490", "471-480",
   "461-470", "451-460", "401-450", "441-450", "431-440", "421-430",
   "411-420", "401-410", "351-400", "301-350", "0-300"]

def poolFieldName (i : Nat) : String := "dd" ++ toString i

/-- The field indices 1..17 of the inner pool loop. -/
def poolIndices : List Nat := (List.range 17).map (fun i => i + 1)

/-- The inner pool loop (lines 261-282).  Missing, empty, and literal-zero
fields `continue`; a non-numeric field raises `ValueError`, which the
record-level handler catches, abandoning the remaining fields of this
record (after the date was already appended to `x` at line 281). -/
def poolLoop (rd : Record) (drawDate : String) : List Nat → SMap → SMap
  | [], m => m
  | i :: rest, m =>
    match lookupField rd (poolFieldName i) with
    | none => poolLoop rd drawDate rest m
    | some raw =>
      let drawPool : List Char := removeChar ',' raw.data
      if drawPool.isEmpty || drawPool = ['0'] then poolLoop rd drawDate rest m
      else
        let poolName := "CRS Range: " ++ (CRS_POOL_RANGES.getD (i - 1) "")
        let m := appendX poolName drawDate (ensureKey poolName m)
        match pyInt ⟨drawPool⟩ with
        | some v => poolLoop rd drawDate rest (appendY poolName v m)
        | none => m

/-- The per-record body of the pool-trend batch loop (lines 249-286):
skip on a missing date (`KeyError`), skip the record when all 17 pool
fields read as the literal `'0'` (lines 254-258), otherwise run the inner
pool loop. -/
def poolRecordStep (rd : Record) (m : SMap) : SMap :=
  match lookupField rd "drawDate" with
  | none => m
  | some drawDate =>
    let zeroCount :=
      (poolIndices.filter (fun i => getField rd (poolFieldName i) "0" = "0")).length
    if zeroCount = 17 then m
    else poolLoop rd drawDate poolIndices m

def processPoolTrends (bs : Int) (rounds : List Record) : Except PyErr SMap := do
  let acc ← chunkProcess poolRecordStep bs rounds
  let sorted ← sortDataByDate acc
  pure (orderByKey sorted)

/-! ## Draw-size trend (`_process_draw_size_trends`, lines 302-373) -/

/-- The exact value of a mean candidate count as an unreduced fraction
(`sum(candidates) / len(candidates)`, line 338).  The Python value is an
IEEE double; the claims only use its sign and the sign of an IEEE quotient
of integers of feasible magnitude equals the sign of the exact quotient. -/
structure Frac where
  num : Int
  den : Nat
deriving DecidableEq, Repr

/-- Models `sum(candidates) / len(candidates) if candidates else 0` (line 338). -/
def meanOf (cs : List Int) : Frac :=
  if cs.isEmpty then { num := 0, den := 1 }
  else { num := cs.foldl (· + ·) 0, den := cs.length }

/-- Models `value > 0` on a mean (line 345). -/
def fracPos (f : Frac) : Bool := 0 < f.num

/-- A draw-size output series: its `y` carries invitation sums (integers)
or mean candidate counts (fractions). -/
structure DSeries where
  x : List String
  y : List Frac
  typ : String
  mode : String
  name : String
deriving DecidableEq, Repr

def intFrac (v : Int) : Frac := { num := v, den := 1 }

/-- Models `draw_invitations_per_month[ym] = .get(ym, 0) + draw_size`
(lines 323-324). -/
def bumpInv (inv : List (String × Int)) (k : String) (v : Int) : List (String × Int) :=
  if containsKey k inv then
    inv.map (fun kv => if kv.1 = k then (kv.1, kv.2 + v) else kv)
  else inv ++ [(k, v)]

/-- Models `candidates_per_month.setdefault-style append` (lines 328-330). -/
def appendCand (cand : List (String × List Int)) (k : String) (v : Int) :
    List (String × List Int) :=
  if containsKey k cand then
    cand.map (fun kv => if kv.1 = k then (kv.1, kv.2 ++ [v]) else kv)
  else cand ++ [(k, [v])]

/-- One record of the single pass (lines 315-334): date, then draw size
(updating the invitation sums), then `dd18` (updating the candidate
lists); a `KeyError`/`ValueError` at any point skips the rest of the
record, keeping the updates already made. -/
def drawSizeStep (st : List (String × Int) × List (String × List Int)) (rd : Record) :
    List (String × Int) × List (String × List Int) :=
  match lookupField rd "drawDate" with
  | none => st
  | some drawDate =>
    let ym := yearMonth drawDate
    match lookupField rd "drawSize" with
    | none => st
    | some sizeStr =>
      match parseNumericValue sizeStr with
      | none => st
      | some size =>
        let inv := bumpInv st.1 ym size
        match lookupField rd "dd18" with
        | none => (inv, st.2)
        | some candStr =>
          match parseNumericValue candStr with
          | none => (inv, st.2)
          | some v => (inv, appendCand st.2 ym v)

def drawSizeMaps (rounds : List Record) :
    List (String × Int) × List (String × List Int) :=
  rounds.foldl drawSizeStep ([], [])

/-- Models `valid_months` (lines 336-346): months whose mean candidate count is
positive, in insertion order. -/
def validMonths (cand : List (String × List Int)) : List (String × Frac) :=
  (cand.map (fun kv => (kv.1, meanOf kv.2))).filter (fun kv => fracPos kv.2)

/-- Models `[filtered_invitations[month] for month in sorted_months]` (line 361):
a month absent from the map raises `KeyError` (uncaught). -/
def lookupAll (inv : List (String × Int)) : List String → Except PyErr (List Int)
  | [] => .ok []
  | m :: rest =>
    match alookup inv m with
    | some v => (lookupAll inv rest).map (fun vs => v :: vs)
    | none => .error .keyError

/-- Models `valid_months` of the given record list. -/
def dsValid (rounds : List Record) : List (String × Frac) :=
  validMonths (drawSizeMaps rounds).2

/-- Models `filtered_invitations` (lines 349-353): the invitation sums restricted
to the valid months. -/
def dsFilteredInv (rounds : List Record) : List (String × Int) :=
  ((dsValid rounds).map (fun kv => kv.1)).filterMap
    (fun m => (alookup (drawSizeMaps rounds).1 m).map (fun v => (m, v)))

/-- Models `sorted_months` (line 356). -/
def dsSortedMonths (rounds : List Record) : List String :=
  List.insertionSort strLe ((dsValid rounds).map (fun kv => kv.1))

/-- Models `_process_draw_size_trends` (lines 302-373).  The filter at lines
349-353 makes the line-361 lookups total in fact, which is proved
separately, not assumed. -/
def drawSizeTrends (rounds : List Record) : Except PyErr (List DSeries) := do
  let y1raw ← lookupAll (dsFilteredInv rounds) (dsSortedMonths rounds)
  pure
    [{ x := dsSortedMonths rounds, y := y1raw.map intFrac, typ := "scatter",
       mode := "lines+markers", name := "Draw Invitations" },
     { x := dsSortedMonths rounds,
       y := (dsSortedMonths rounds).map (fun m => (alookup (dsValid rounds) m).getD (intFrac 0)),
       typ := "scatter", mode := "lines+markers", name := "Total(Mean) Candidates" }]

/-! ## Constructor and pipeline (lines 35-61, 375-410) -/

/-- Models `self.batch_size = batch_size or self.BATCH_SIZE` (line 45): `None`
and `0` are falsy and fall back to the default 8; every other integer is
kept unchanged. -/
def initBatchSize (b : Option Int) : Int :=
  match b with
  | none => 8
  | some v => if v = 0 then 8 else v

/-- Models `process_all_trends` (lines 375-410) restricted to its pure core: the
three transforms run in order over the loaded record list; the first
uncaught exception aborts the run (it is logged and re-raised).  Loading
and file writing are I/O and are outside this embedding. -/
def processAllTrends (bs : Int) (rounds : List Record) :
    Except PyErr (SMap × SMap × List DSeries) := do
  let crs ← processCrsTrends bs rounds
  let pool ← processPoolTrends bs rounds
  let ds ← drawSizeTrends rounds
  pure (crs, pool, ds)

/-! ## Association-map lemmas -/

/-- The key list of an association map. -/
def keysOf {β : Type} (m : List (String × β)) : List String := m.map (fun kv => kv.1)

/-- The dict invariant: keys are unique. -/
def NodupKeys {β : Type} (m : List (String × β)) : Prop := (keysOf m).Nodup

/-- The value transformation applied by `extendSeries`. -/
def extApply (v : SeriesData) (s : SeriesData) : SeriesData :=
  { s with x := s.x ++ v.x, y := s.y ++ v.y }

/-- The string strict order on output keys (Python `<` on `str`). -/
def strLt (a b : String) : Prop := strLtB a b = true

/-- The invariant of the draw-size pass: both month maps keep unique keys,
and every month with a candidate list also carries an invitation sum
(`drawSize` is parsed before `dd18`, lines 322-330). -/
def DSInv (st : List (String × Int) × List (String × List Int)) : Prop :=
  NodupKeys st.1 ∧ NodupKeys st.2 ∧ ∀ m, m ∈ keysOf st.2 → m ∈ keysOf st.1

/-! ## Year-month calendar comparison (the claim's reading of the
draw-size x axis, whose entries are `YYYY-MM` strings) -/

/-- Interpret an x entry of the draw-size output as a calendar year-month:
four year digits, `-`, one or two month digits with value 1..12. -/
def parseYearMonth (s : String) : Option (Nat × Nat) :=
  match pySplit '-' s.data with
  | [ys, ms] =>
    if allDigits ys && ys.length = 4 && allDigits ms
        && (ms.length = 1 || ms.length = 2)
        && 1 ≤ digitsVal ms && digitsVal ms ≤ 12 then
      some (digitsVal ys, digitsVal ms)
    else none
  | _ => none

/-- Chronological comparison of year-months. -/
def ymLeB (a b : Nat × Nat) : Bool := a.1 < b.1 || (a.1 = b.1 && a.2 ≤ b.2)

/-- Two x entries are calendar-ordered when both parse as year-months in
order.  ("x is non-decreasing when its entries are compared as calendar
dates.") -/
@[reducible] def ymOrd (a b : String) : Prop :=
  ∃ pa pb, parseYearMonth a = some pa ∧ parseYearMonth b = some pb ∧ ymLeB pa pb = true

/-- Two full-date x entries are calendar-ordered. -/
@[reducible] def dateOrd (a b : String) : Prop :=
  ∃ pa pb, parseDate a = some pa ∧ parseDate b = some pb ∧ dateLe pa pb = true

/-- A zero-padded well-formed year-month string `YYYY-MM`. -/
def isPaddedYM (s : String) : Bool :=
  match s.data with
  | [y1, y2, y3, y4, '-', m1, m2] =>
    isDigitChar y1 && isDigitChar y2 && isDigitChar y3 && isDigitChar y4
      && isDigitChar m1 && isDigitChar m2
      && 1 ≤ digitsVal [m1, m2] && digitsVal [m1, m2] ≤ 12
  | _ => false

/-! ## Sample records used by concrete theorems -/

/-- A well-formed score record (the first record of the spec's end-to-end
example). -/
def sampleCrsA : Record := [("drawDate", "2024-02-01"), ("drawName", "General (X)"), ("drawCRS", "500")]

/-- The second record of the spec's end-to-end example. -/
def sampleCrsB : Record := [("drawDate", "2024-01-01"), ("drawName", "General (X)"), ("drawCRS", "600")]

/-- A record whose three score fields are present and whose date parses,
but whose score is not numeric after comma removal. -/
def badScoreRec : Record := [("drawName", "A"), ("drawDate", "2024-01-01"), ("drawCRS", "12x")]

/-- A pool record whose first pool field is malformed and whose second is
well-formed. -/
def poolBadFieldRec : Record := [("drawDate", "2024-01-01"), ("dd1", "12x"), ("dd2", "100")]

/-- Draw-size records whose dates parse but whose months are not
zero-padded uniformly. -/
def unpaddedRec1 : Record := [("drawDate", "2024-1-05"), ("drawSize", "10"), ("dd18", "5")]

def unpaddedRec2 : Record := [("drawDate", "2024-02-10"), ("drawSize", "20"), ("dd18", "7")]

/-- Draw-size records: one month with candidate count zero, one with a
positive count. -/
def dsZeroMeanRec : Record := [("drawDate", "2024-01-05"), ("drawSize", "10"), ("dd18", "0")]

def dsPosMeanRec : Record := [("drawDate", "2024-02-05"), ("drawSize", "20"), ("dd18", "7")]

/-- A series accumulated with an unparseable date. -/
def badDateSeries : SeriesData :=
  { x := ["nodate", "2024-01-01"], y := [1, 2], typ := "scatter",
    mode := "lines+markers", name := "A" }


theorem keysOf_nil {β : Type} : keysOf ([] : List (String × β)) = [] := rfl

theorem keysOf_append {β : Type} (a b : List (String × β)) :
    keysOf (a ++ b) = keysOf a ++ keysOf b := by
  simp [keysOf]

theorem containsKey_iff {β : Type} {k : String} {m : List (String × β)} :
    containsKey k m = true ↔ k ∈ keysOf m := by
  simp [containsKey, keysOf, List.any_eq_true, List.mem_map]

theorem containsKey_false_iff {β : Type} {k : String} {m : List (String × β)} :
    containsKey k m = false ↔ k ∉ keysOf m := by
  rw [← containsKey_iff]
  cases h : containsKey k m <;> simp

theorem keysOf_modifyVal (k : String) (f : SeriesData → SeriesData) (m : SMap) :
    keysOf (modifyVal k f m) = keysOf m := by
  simp only [keysOf, modifyVal, List.map_map]
  apply List.map_congr_left
  intro kv _
  by_cases h : kv.1 = k <;> simp [h]

theorem containsKey_modifyVal (j k : String) (f : SeriesData → SeriesData) (m : SMap) :
    containsKey j (modifyVal k f m) = containsKey j m := by
  cases hm : containsKey j m
  · exact containsKey_false_iff.mpr (by rw [keysOf_modifyVal]; exact containsKey_false_iff.mp hm)
  · exact containsKey_iff.mpr (by rw [keysOf_modifyVal]; exact containsKey_iff.mp hm)

theorem modifyVal_absent {k : String} {f : SeriesData → SeriesData} {m : SMap}
    (h : containsKey k m = false) : modifyVal k f m = m := by
  have hk : k ∉ keysOf m := containsKey_false_iff.mp h
  unfold modifyVal
  conv_rhs => rw [← List.map_id m]
  apply List.map_congr_left
  intro kv hkv
  have : kv.1 ≠ k := by
    intro he
    exact hk (he ▸ List.mem_map_of_mem (fun kv => kv.1) hkv)
  simp [this]

theorem modifyVal_append (k : String) (f : SeriesData → SeriesData) (a b : SMap) :
    modifyVal k f (a ++ b) = modifyVal k f a ++ modifyVal k f b := by
  simp [modifyVal]

theorem modifyVal_congr {k : String} {f g : SeriesData → SeriesData} {m : SMap}
    (h : ∀ s, f s = g s) : modifyVal k f m = modifyVal k g m := by
  unfold modifyVal
  apply List.map_congr_left
  intro kv _
  by_cases hk : kv.1 = k <;> simp [hk, h]

theorem modifyVal_id {k : String} {f : SeriesData → SeriesData} {m : SMap}
    (h : ∀ s, f s = s) : modifyVal k f m = m := by
  unfold modifyVal
  conv_rhs => rw [← List.map_id m]
  apply List.map_congr_left
  intro kv _
  by_cases hk : kv.1 = k
  · rw [if_pos hk, h]
    rfl
  · rw [if_neg hk]
    rfl

theorem modifyVal_modifyVal_same (k : String) (f g : SeriesData → SeriesData) (m : SMap) :
    modifyVal k f (modifyVal k g m) = modifyVal k (fun s => f (g s)) m := by
  unfold modifyVal
  rw [List.map_map]
  apply List.map_congr_left
  intro kv _
  by_cases hk : kv.1 = k <;> simp [hk]

theorem modifyVal_modifyVal_ne {j k : String} (hjk : j ≠ k)
    (f g : SeriesData → SeriesData) (m : SMap) :
    modifyVal j f (modifyVal k g m) = modifyVal k g (modifyVal j f m) := by
  unfold modifyVal
  rw [List.map_map, List.map_map]
  apply List.map_congr_left
  intro kv _
  by_cases hj : kv.1 = j
  · have hk : kv.1 ≠ k := fun he => hjk (hj ▸ he ▸ rfl)
    simp [hj, hk, hjk]
  · by_cases hk : kv.1 = k <;> simp [hj, hk, Ne.symm hjk]

theorem extendSeries_eq_modify (k : String) (v : SeriesData) (m : SMap) :
    extendSeries k v m = modifyVal k (extApply v) m := rfl

theorem nodupKeys_modifyVal {k : String} {f : SeriesData → SeriesData} {m : SMap}
    (h : NodupKeys m) : NodupKeys (modifyVal k f m) := by
  unfold NodupKeys
  rw [keysOf_modifyVal]
  exact h

theorem nodupKeys_ensureKey {k : String} {m : SMap} (h : NodupKeys m) :
    NodupKeys (ensureKey k m) := by
  unfold ensureKey
  by_cases hk : containsKey k m = true
  · simp [hk, h]
  · have hk' : containsKey k m = false := by
      cases hc : containsKey k m
      · rfl
      · exact absurd hc hk
    simp only [hk', Bool.false_eq_true, if_false]
    unfold NodupKeys at h ⊢
    rw [keysOf_append]
    simp only [keysOf, List.map_cons, List.map_nil]
    rw [List.nodup_append]
    refine ⟨h, List.nodup_singleton k, ?_⟩
    intro a ha hb
    rw [List.mem_singleton] at hb
    exact (containsKey_false_iff.mp hk') (hb ▸ ha)

theorem containsKey_append (j : String) (a b : SMap) :
    containsKey j (a ++ b) = (containsKey j a || containsKey j b) := by
  simp [containsKey]

theorem containsKey_ensureKey (j k : String) (m : SMap) :
    containsKey j (ensureKey k m) = (containsKey j m || decide (k = j)) := by
  unfold ensureKey
  by_cases hk : containsKey k m = true
  · simp only [hk, if_true]
    by_cases hj : k = j
    · subst hj
      simp [hk]
    · simp [hj]
  · have hk' : containsKey k m = false := by
      cases hc : containsKey k m
      · rfl
      · exact absurd hc hk
    simp only [hk', Bool.false_eq_true, if_false, containsKey_append]
    simp [containsKey]

/-! ## Merge lemmas: merging a step-built batch equals stepping directly -/

theorem mergeInto_nil (acc : SMap) : mergeInto acc [] = acc := rfl

theorem mergeInto_cons (acc : SMap) (e : String × SeriesData) (bd : SMap) :
    mergeInto acc (e :: bd) = mergeInto (mergeEntry acc e) bd := rfl

theorem mergeInto_append (acc : SMap) (a b : SMap) :
    mergeInto acc (a ++ b) = mergeInto (mergeInto acc a) b := by
  unfold mergeInto
  exact List.foldl_append ..

theorem containsKey_mergeEntry (j : String) (a : SMap) (e : String × SeriesData) :
    containsKey j (mergeEntry a e) = (containsKey j a || decide (e.1 = j)) := by
  unfold mergeEntry
  by_cases he : containsKey e.1 a = true
  · simp only [he, if_true, extendSeries_eq_modify, containsKey_modifyVal]
    by_cases hej : e.1 = j
    · subst hej
      simp [he]
    · simp [hej]
  · have he' : containsKey e.1 a = false := by
      cases hc : containsKey e.1 a
      · rfl
      · exact absurd hc he
    simp only [he', Bool.false_eq_true, if_false, containsKey_append]
    simp [containsKey]

theorem containsKey_mergeInto (j : String) (acc bd : SMap) :
    containsKey j (mergeInto acc bd) = (containsKey j acc || containsKey j bd) := by
  induction bd generalizing acc with
  | nil => simp [mergeInto_nil, containsKey]
  | cons e bd ih =>
    rw [mergeInto_cons, ih, containsKey_mergeEntry]
    simp only [containsKey, List.any_cons]
    cases containsKey j acc <;> cases hj : decide (e.1 = j) <;> simp_all [containsKey]

theorem nodupKeys_mergeEntry {acc : SMap} (e : String × SeriesData)
    (h : NodupKeys acc) : NodupKeys (mergeEntry acc e) := by
  unfold mergeEntry
  by_cases he : containsKey e.1 acc = true
  · simp only [he, if_true, extendSeries_eq_modify]
    exact nodupKeys_modifyVal h
  · have he' : containsKey e.1 acc = false := by
      cases hc : containsKey e.1 acc
      · rfl
      · exact absurd hc he
    simp only [he', Bool.false_eq_true, if_false]
    unfold NodupKeys at h ⊢
    rw [keysOf_append]
    simp only [keysOf, List.map_cons, List.map_nil]
    rw [List.nodup_append]
    refine ⟨h, List.nodup_singleton _, ?_⟩
    intro a ha hb
    rw [List.mem_singleton] at hb
    exact (containsKey_false_iff.mp he') (hb ▸ ha)

theorem nodupKeys_mergeInto {acc : SMap} (bd : SMap) (h : NodupKeys acc) :
    NodupKeys (mergeInto acc bd) := by
  induction bd generalizing acc with
  | nil => exact h
  | cons e bd ih => exact ih (nodupKeys_mergeEntry e h)

/-- A value update under a key foreign to the batch commutes past the
merge of that batch. -/
theorem modifyVal_mergeInto {k : String} (f : SeriesData → SeriesData)
    {bd : SMap} (hk : ∀ e ∈ bd, e.1 ≠ k) (acc : SMap) :
    modifyVal k f (mergeInto acc bd) = mergeInto (modifyVal k f acc) bd := by
  induction bd generalizing acc with
  | nil => rfl
  | cons e bd ih =>
    rw [mergeInto_cons, mergeInto_cons, ih (fun e' he' => hk e' (List.mem_cons_of_mem e he'))]
    congr 1
    have hek : e.1 ≠ k := hk e (List.mem_cons_self e bd)
    unfold mergeEntry
    rw [containsKey_modifyVal]
    by_cases hc : containsKey e.1 acc = true
    · simp only [hc, if_true, extendSeries_eq_modify]
      exact (modifyVal_modifyVal_ne hek (extApply e.2) f acc).symm
    · have hc' : containsKey e.1 acc = false := by
        cases h2 : containsKey e.1 acc
        · rfl
        · exact absurd h2 hc
      simp only [hc', Bool.false_eq_true, if_false, modifyVal_append]
      congr 1
      unfold modifyVal
      simp [hek]

/-- The update ensureKey commutes past merging a batch into the accumulator. -/
theorem mergeInto_ensureKey (k : String) (bd acc : SMap) :
    mergeInto acc (ensureKey k bd) = ensureKey k (mergeInto acc bd) := by
  by_cases hk : containsKey k bd = true
  · have h1 : ensureKey k bd = bd := by unfold ensureKey; simp [hk]
    have h2 : containsKey k (mergeInto acc bd) = true := by
      rw [containsKey_mergeInto, hk, Bool.or_true]
    rw [h1]
    unfold ensureKey
    simp [h2]
  · have hk' : containsKey k bd = false := by
      cases hc : containsKey k bd
      · rfl
      · exact absurd hc hk
    have h1 : ensureKey k bd = bd ++ [(k, mkEmptySeries k)] := by
      unfold ensureKey; simp [hk']
    rw [h1, mergeInto_append]
    show mergeEntry (mergeInto acc bd) (k, mkEmptySeries k) = _
    unfold mergeEntry ensureKey
    by_cases hc : containsKey k (mergeInto acc bd) = true
    · simp only [hc, if_true, extendSeries_eq_modify]
      exact modifyVal_id (fun s => by simp [extApply, mkEmptySeries])
    · have hc' : containsKey k (mergeInto acc bd) = false := by
        cases h2 : containsKey k (mergeInto acc bd)
        · rfl
        · exact absurd h2 hc
      simp [hc']

/-- Key step of batching invariance: appending data to a key that the
batch already carries can be done before or after merging the batch. -/
theorem mergeInto_modifyVal {k : String} {f : SeriesData → SeriesData}
    (hf : ∀ v s, f (extApply v s) = extApply (f v) s)
    {bd : SMap} (hnd : NodupKeys bd) (hk : containsKey k bd = true) (acc : SMap) :
    mergeInto acc (modifyVal k f bd) = modifyVal k f (mergeInto acc bd) := by
  induction bd generalizing acc with
  | nil => simp [containsKey] at hk
  | cons e bd ih =>
    have hmap : modifyVal k f (e :: bd) =
        (if e.1 = k then (e.1, f e.2) else e) :: modifyVal k f bd := by
      unfold modifyVal
      rfl
    by_cases he : e.1 = k
    · -- the head carries `k`; by key uniqueness the tail does not
      have hbd : ∀ e' ∈ bd, e'.1 ≠ k := by
        intro e' he'
        have hnd' := hnd
        unfold NodupKeys keysOf at hnd'
        rw [List.map_cons, List.nodup_cons] at hnd'
        intro hek
        exact hnd'.1 (he ▸ hek ▸ List.mem_map_of_mem (fun kv => kv.1) he')
      have htail : modifyVal k f bd = bd := by
        apply modifyVal_absent
        rw [containsKey_false_iff]
        intro hmem
        rcases List.mem_map.mp hmem with ⟨e', he', hfst⟩
        exact hbd e' he' hfst
      rw [hmap, if_pos he, htail, mergeInto_cons, mergeInto_cons]
      rw [modifyVal_mergeInto f hbd]
      congr 1
      -- mergeEntry acc (e.1, f e.2) = modifyVal k f (mergeEntry acc e)
      unfold mergeEntry
      by_cases hc : containsKey e.1 acc = true
      · have hc2 : containsKey (e.1, f e.2).1 acc = true := hc
        simp only [hc2, hc, if_true, extendSeries_eq_modify]
        subst he
        rw [modifyVal_modifyVal_same]
        exact modifyVal_congr (fun s => (hf e.2 s).symm)
      · have hc' : containsKey e.1 acc = false := by
          cases h2 : containsKey e.1 acc
          · rfl
          · exact absurd h2 hc
        have hc2 : containsKey (e.1, f e.2).1 acc = false := hc'
        simp only [hc2, hc', Bool.false_eq_true, if_false, modifyVal_append]
        rw [he] at hc'
        rw [modifyVal_absent hc']
        subst he
        unfold modifyVal
        simp
    · -- the head is another key; `k` lives in the tail
      have hk' : containsKey k bd = true := by
        unfold containsKey at hk
        rw [List.any_cons] at hk
        rcases Bool.or_eq_true_iff.mp hk with h1 | h1
        · exact absurd (of_decide_eq_true h1) he
        · exact h1
      have hnd' : NodupKeys bd := by
        unfold NodupKeys keysOf at hnd ⊢
        rw [List.map_cons, List.nodup_cons] at hnd
        exact hnd.2
      rw [hmap, if_neg he, mergeInto_cons, mergeInto_cons, ih hnd' hk']

theorem mergeInto_appendX (k d : String) {bd : SMap} (hnd : NodupKeys bd)
    (hk : containsKey k bd = true) (acc : SMap) :
    mergeInto acc (appendX k d bd) = appendX k d (mergeInto acc bd) :=
  mergeInto_modifyVal (fun v s => by simp [extApply, List.append_assoc]) hnd hk acc

theorem mergeInto_appendY (k : String) (v : Int) {bd : SMap} (hnd : NodupKeys bd)
    (hk : containsKey k bd = true) (acc : SMap) :
    mergeInto acc (appendY k v bd) = appendY k v (mergeInto acc bd) :=
  mergeInto_modifyVal (fun v' s => by simp [extApply, List.append_assoc]) hnd hk acc

theorem containsKey_self_ensureKey (k : String) (m : SMap) :
    containsKey k (ensureKey k m) = true := by
  rw [containsKey_ensureKey]
  simp

theorem containsKey_appendX (j k d : String) (m : SMap) :
    containsKey j (appendX k d m) = containsKey j m :=
  containsKey_modifyVal j k _ m

theorem nodupKeys_appendX (k d : String) {m : SMap} (h : NodupKeys m) :
    NodupKeys (appendX k d m) := nodupKeys_modifyVal h

theorem nodupKeys_appendY (k : String) (v : Int) {m : SMap} (h : NodupKeys m) :
    NodupKeys (appendY k v m) := nodupKeys_modifyVal h

/-- The score-trend per-record step commutes past merging: appending one
record's data to an isolated batch and then merging equals appending it
to the merged accumulator directly. -/
theorem mergeInto_crsStep (rd : Record) {bd : SMap} (hnd : NodupKeys bd) (acc : SMap) :
    mergeInto acc (crsRecordStep rd bd) = crsRecordStep rd (mergeInto acc bd) := by
  unfold crsRecordStep
  cases lookupField rd "drawName" with
  | none => rfl
  | some drawName =>
    cases lookupField rd "drawDate" with
    | none => rfl
    | some drawDate =>
      cases lookupField rd "drawCRS" with
      | none => rfl
      | some drawCRS =>
        simp only
        have hnd1 : NodupKeys (ensureKey (extractDrawName drawName) bd) :=
          nodupKeys_ensureKey hnd
        have hk1 : containsKey (extractDrawName drawName)
            (ensureKey (extractDrawName drawName) bd) = true :=
          containsKey_self_ensureKey _ bd
        cases parseNumericValue drawCRS with
        | none =>
          rw [mergeInto_appendX _ _ hnd1 hk1, mergeInto_ensureKey]
        | some v =>
          rw [mergeInto_appendY _ _ (nodupKeys_appendX _ _ hnd1)
              (by rw [containsKey_appendX]; exact hk1),
            mergeInto_appendX _ _ hnd1 hk1, mergeInto_ensureKey]

theorem nodupKeys_crsStep (rd : Record) {m : SMap} (h : NodupKeys m) :
    NodupKeys (crsRecordStep rd m) := by
  unfold crsRecordStep
  cases lookupField rd "drawName" with
  | none => exact h
  | some drawName =>
    cases lookupField rd "drawDate" with
    | none => exact h
    | some drawDate =>
      cases lookupField rd "drawCRS" with
      | none => exact h
      | some drawCRS =>
        simp only
        cases parseNumericValue drawCRS with
        | none => exact nodupKeys_appendX _ _ (nodupKeys_ensureKey h)
        | some v =>
          exact nodupKeys_appendY _ _ (nodupKeys_appendX _ _ (nodupKeys_ensureKey h))

/-- The inner pool loop commutes past merging (its control flow depends
only on the record, never on the map being built). -/
theorem mergeInto_poolLoop (rd : Record) (drawDate : String) :
    ∀ (fields : List Nat) {bd : SMap}, NodupKeys bd → ∀ acc : SMap,
      mergeInto acc (poolLoop rd drawDate fields bd) =
        poolLoop rd drawDate fields (mergeInto acc bd) := by
  intro fields
  induction fields with
  | nil => intro bd _ acc; rfl
  | cons i rest ih =>
    intro bd hnd acc
    simp only [poolLoop]
    cases lookupField rd (poolFieldName i) with
    | none => exact ih hnd acc
    | some raw =>
      simp only
      by_cases hskip : (removeChar ',' raw.data).isEmpty = true ∨ removeChar ',' raw.data = ['0']
      · have : ((removeChar ',' raw.data).isEmpty || removeChar ',' raw.data = ['0']) = true := by
          rcases hskip with h | h
          · simp [h]
          · simp [h]
        rw [if_pos this, if_pos this]
        exact ih hnd acc
      · have : ((removeChar ',' raw.data).isEmpty || removeChar ',' raw.data = ['0']) = false := by
          rw [Bool.or_eq_false_iff]
          constructor
          · cases hE : (removeChar ',' raw.data).isEmpty
            · rfl
            · exact absurd (Or.inl hE) hskip
          · cases hZ : decide (removeChar ',' raw.data = ['0'])
            · rfl
            · exact absurd (Or.inr (of_decide_eq_true hZ)) hskip
        rw [if_neg (by simp [this]), if_neg (by simp [this])]
        set pn := "CRS Range: " ++ (CRS_POOL_RANGES.getD (i - 1) "") with hpn
        have hnd1 : NodupKeys (ensureKey pn bd) := nodupKeys_ensureKey hnd
        have hk1 : containsKey pn (ensureKey pn bd) = true :=
          containsKey_self_ensureKey pn bd
        cases pyInt ⟨removeChar ',' raw.data⟩ with
        | none =>
          rw [mergeInto_appendX _ _ hnd1 hk1, mergeInto_ensureKey]
        | some v =>
          rw [ih (nodupKeys_appendY _ _ (nodupKeys_appendX _ _ hnd1)),
            mergeInto_appendY _ _ (nodupKeys_appendX _ _ hnd1)
              (by rw [containsKey_appendX]; exact hk1),
            mergeInto_appendX _ _ hnd1 hk1, mergeInto_ensureKey]

theorem nodupKeys_poolLoop (rd : Record) (drawDate : String) :
    ∀ (fields : List Nat) {m : SMap}, NodupKeys m →
      NodupKeys (poolLoop rd drawDate fields m) := by
  intro fields
  induction fields with
  | nil => intro m h; exact h
  | cons i rest ih =>
    intro m h
    simp only [poolLoop]
    cases lookupField rd (poolFieldName i) with
    | none => exact ih h
    | some raw =>
      simp only
      by_cases hskip : ((removeChar ',' raw.data).isEmpty || removeChar ',' raw.data = ['0']) = true
      · rw [if_pos hskip]
        exact ih h
      · rw [if_neg hskip]
        cases pyInt ⟨removeChar ',' raw.data⟩ with
        | none => exact nodupKeys_appendX _ _ (nodupKeys_ensureKey h)
        | some v =>
          exact ih (nodupKeys_appendY _ _ (nodupKeys_appendX _ _ (nodupKeys_ensureKey h)))

theorem mergeInto_poolStep (rd : Record) {bd : SMap} (hnd : NodupKeys bd) (acc : SMap) :
    mergeInto acc (poolRecordStep rd bd) = poolRecordStep rd (mergeInto acc bd) := by
  unfold poolRecordStep
  cases lookupField rd "drawDate" with
  | none => rfl
  | some drawDate =>
    simp only
    by_cases hz : (poolIndices.filter (fun i => getField rd (poolFieldName i) "0" = "0")).length = 17
    · rw [if_pos hz, if_pos hz]
    · rw [if_neg hz, if_neg hz]
      exact mergeInto_poolLoop rd drawDate poolIndices hnd acc

theorem nodupKeys_poolStep (rd : Record) {m : SMap} (h : NodupKeys m) :
    NodupKeys (poolRecordStep rd m) := by
  unfold poolRecordStep
  cases lookupField rd "drawDate" with
  | none => exact h
  | some drawDate =>
    simp only
    by_cases hz : (poolIndices.filter (fun i => getField rd (poolFieldName i) "0" = "0")).length = 17
    · rw [if_pos hz]; exact h
    · rw [if_neg hz]; exact nodupKeys_poolLoop rd drawDate poolIndices h

/-! ## Batching is output-invariant: the chunked fold equals the plain fold -/

/-- Merging a batch built from `bd` by per-record steps equals stepping
the same records directly on the merged accumulator. -/
theorem mergeInto_foldSteps (step : Record → SMap → SMap)
    (hcomm : ∀ rd {bd : SMap}, NodupKeys bd → ∀ acc : SMap,
      mergeInto acc (step rd bd) = step rd (mergeInto acc bd))
    (hnd : ∀ rd {bd : SMap}, NodupKeys bd → NodupKeys (step rd bd)) :
    ∀ (batch : List Record) {bd : SMap}, NodupKeys bd → ∀ acc : SMap,
      mergeInto acc (batch.foldl (fun m rd => step rd m) bd) =
        batch.foldl (fun m rd => step rd m) (mergeInto acc bd) := by
  intro batch
  induction batch with
  | nil => intro bd _ acc; rfl
  | cons rd batch ih =>
    intro bd hbd acc
    simp only [List.foldl_cons]
    rw [ih (hnd rd hbd) acc, hcomm rd hbd acc]

theorem mergeInto_batchData (step : Record → SMap → SMap)
    (hcomm : ∀ rd {bd : SMap}, NodupKeys bd → ∀ acc : SMap,
      mergeInto acc (step rd bd) = step rd (mergeInto acc bd))
    (hnd : ∀ rd {bd : SMap}, NodupKeys bd → NodupKeys (step rd bd))
    (batch : List Record) (acc : SMap) :
    mergeInto acc (batchData step batch) = batch.foldl (fun m rd => step rd m) acc := by
  unfold batchData
  rw [mergeInto_foldSteps step hcomm hnd batch (by simp [NodupKeys, keysOf]) acc]
  rfl

/-- Folding the batch loop over the index range starting at `s` equals a
direct fold over the records from position `s` on. -/
theorem chunkFoldAux (step : Record → SMap → SMap)
    (hcomm : ∀ rd {bd : SMap}, NodupKeys bd → ∀ acc : SMap,
      mergeInto acc (step rd bd) = step rd (mergeInto acc bd))
    (hnd : ∀ rd {bd : SMap}, NodupKeys bd → NodupKeys (step rd bd))
    (rounds : List Record) (bs : Int) (hbs : 0 < bs) :
    ∀ (fuel : Nat) (s : Nat) (acc : SMap), rounds.length - s ≤ fuel →
      (pyRangeUp (rounds.length : Int) bs fuel (s : Int)).foldl
        (fun acc i =>
          let batch := pySlice rounds i (i + bs)
          if batch.isEmpty then acc else mergeInto acc (batchData step batch)) acc
      = (rounds.drop s).foldl (fun m rd => step rd m) acc := by
  intro fuel
  induction fuel with
  | zero =>
    intro s acc hfuel
    have hs : rounds.length ≤ s := by omega
    rw [List.drop_eq_nil_of_le hs]
    rfl
  | succ fuel ih =>
    intro s acc hfuel
    by_cases hlt : (s : Int) < (rounds.length : Int)
    · have hsn : s < rounds.length := by exact_mod_cast hlt
      rw [pyRangeUp, if_pos hlt, List.foldl_cons]
      have hbatch : pySlice rounds (s : Int) ((s : Int) + bs) =
          (rounds.drop s).take bs.toNat := by
        unfold pySlice
        have h1 : ((s : Int)).toNat = s := by omega
        have h2 : ((s : Int) + bs).toNat = s + bs.toNat := by omega
        rw [h1, h2]
        congr 1
        omega
      have hne : ((rounds.drop s).take bs.toNat).isEmpty = false := by
        have hd : rounds.drop s ≠ [] := by
          intro hnil
          rw [List.drop_eq_nil_iff] at hnil
          omega
        have htne : (rounds.drop s).take bs.toNat ≠ [] := by
          rw [Ne, List.take_eq_nil_iff]
          push_neg
          exact ⟨by omega, hd⟩
        cases hE : ((rounds.drop s).take bs.toNat).isEmpty
        · rfl
        · exact absurd (List.isEmpty_iff.mp hE) htne
      simp only [hbatch, hne, Bool.false_eq_true, if_false]
      rw [mergeInto_batchData step hcomm hnd]
      have hcast : (s : Int) + bs = ((s + bs.toNat : Nat) : Int) := by omega
      rw [hcast, ih (s + bs.toNat) _ (by omega)]
      rw [← List.foldl_append]
      congr 1
      have hdd : (rounds.drop s).drop bs.toNat = rounds.drop (s + bs.toNat) := by
        rw [List.drop_drop]
      rw [← hdd, List.take_append_drop]
    · have hs : rounds.length ≤ s := by omega
      rw [pyRangeUp, if_neg hlt, List.drop_eq_nil_of_le hs]
      rfl

/-- For every positive batch size, the whole batch loop produces exactly
the accumulator of a single direct pass over the record list: batching is
output-invariant. -/
theorem chunkProcess_eq_fold (step : Record → SMap → SMap)
    (hcomm : ∀ rd {bd : SMap}, NodupKeys bd → ∀ acc : SMap,
      mergeInto acc (step rd bd) = step rd (mergeInto acc bd))
    (hnd : ∀ rd {bd : SMap}, NodupKeys bd → NodupKeys (step rd bd))
    (bs : Int) (hbs : 0 < bs) (rounds : List Record) :
    chunkProcess step bs rounds =
      .ok (rounds.foldl (fun m rd => step rd m) []) := by
  unfold chunkProcess pyRange
  rw [if_neg (by omega), if_pos hbs]
  show Except.ok (chunkFold step bs rounds _) = _
  unfold chunkFold
  have hmain := chunkFoldAux step hcomm hnd rounds bs hbs
    ((rounds.length : Int) - 0).toNat 0 [] (by omega)
  simp only [Nat.cast_zero, List.drop_zero] at hmain
  rw [hmain]

/-! ## Order facts for the two sorts -/

theorem listLtC_nil_right (a : List Char) : listLtC a [] = false := by
  cases a <;> rfl

theorem listLtC_cons (a b : Char) (as_ bs : List Char) :
    listLtC (a :: as_) (b :: bs) =
      if a < b then true else if b < a then false else listLtC as_ bs := rfl

theorem listLtC_cons_iff {a b : Char} {as_ bs : List Char} :
    listLtC (a :: as_) (b :: bs) = true ↔ a < b ∨ (a = b ∧ listLtC as_ bs = true) := by
  rw [listLtC_cons]
  by_cases h1 : a < b
  · simp [h1]
  · by_cases h2 : b < a
    · have hne : a ≠ b := fun he => absurd (he ▸ h2) (lt_irrefl a)
      simp [h1, h2, hne]
    · have heq : a = b := le_antisymm (not_lt.mp h2) (not_lt.mp h1)
      simp [h1, h2, heq]

theorem listLtC_total : ∀ a b : List Char, listLtC a b = true ∨ listLtC b a = true ∨ a = b
  | [], [] => Or.inr (Or.inr rfl)
  | [], _ :: _ => Or.inl rfl
  | _ :: _, [] => Or.inr (Or.inl rfl)
  | a :: as_, b :: bs => by
    rcases lt_trichotomy a b with h | h | h
    · exact Or.inl (listLtC_cons_iff.mpr (Or.inl h))
    · subst h
      rcases listLtC_total as_ bs with h2 | h2 | h2
      · exact Or.inl (listLtC_cons_iff.mpr (Or.inr ⟨rfl, h2⟩))
      · exact Or.inr (Or.inl (listLtC_cons_iff.mpr (Or.inr ⟨rfl, h2⟩)))
      · exact Or.inr (Or.inr (h2 ▸ rfl))
    · exact Or.inr (Or.inl (listLtC_cons_iff.mpr (Or.inl h)))

theorem listLtC_trans : ∀ a b c : List Char,
    listLtC a b = true → listLtC b c = true → listLtC a c = true
  | _, [], _ => fun h _ => absurd h (by simp [listLtC_nil_right])
  | _, _ :: _, [] => fun _ h => absurd h (by simp [listLtC_nil_right])
  | [], _ :: _, _ :: _ => fun _ _ => rfl
  | a :: as_, b :: bs, c :: cs => fun h1 h2 => by
    rcases listLtC_cons_iff.mp h1 with hab | ⟨hab, h1'⟩ <;>
      rcases listLtC_cons_iff.mp h2 with hbc | ⟨hbc, h2'⟩
    · exact listLtC_cons_iff.mpr (Or.inl (lt_trans hab hbc))
    · exact listLtC_cons_iff.mpr (Or.inl (hbc ▸ hab))
    · exact listLtC_cons_iff.mpr (Or.inl (hab ▸ hbc))
    · exact listLtC_cons_iff.mpr (Or.inr ⟨hab.trans hbc, listLtC_trans as_ bs cs h1' h2'⟩)

instance : IsTotal String strLe := by
  constructor
  intro a b
  unfold strLe strLeB
  rcases listLtC_total a.data b.data with h | h | h
  · exact Or.inl (by simp [h])
  · exact Or.inr (by simp [h])
  · have hab : a = b := by
      cases a with
      | mk d1 =>
        cases b with
        | mk d2 => exact congrArg String.mk h
    exact Or.inl (by simp [hab])

instance : IsTrans String strLe := by
  constructor
  intro a b c hab hbc
  unfold strLe strLeB at *
  rcases Bool.or_eq_true_iff.mp hab with h1 | h1 <;>
    rcases Bool.or_eq_true_iff.mp hbc with h2 | h2
  · exact Bool.or_eq_true_iff.mpr (Or.inl (listLtC_trans _ _ _ h1 h2))
  · have hbc' : b = c := of_decide_eq_true h2
    exact Bool.or_eq_true_iff.mpr (Or.inl (hbc' ▸ h1))
  · have hab' : a = b := of_decide_eq_true h1
    exact Bool.or_eq_true_iff.mpr (Or.inl (hab' ▸ h2))
  · have hab' : a = b := of_decide_eq_true h1
    have hbc' : b = c := of_decide_eq_true h2
    exact Bool.or_eq_true_iff.mpr (Or.inr (by simp [hab', hbc']))

theorem dateLe_iff {a b : Date} : dateLe a b = true ↔
    (a.1 < b.1 ∨ (a.1 = b.1 ∧ (a.2.1 < b.2.1 ∨ (a.2.1 = b.2.1 ∧ a.2.2 ≤ b.2.2)))) := by
  unfold dateLe
  simp [Bool.or_eq_true, Bool.and_eq_true, decide_eq_true_eq]

instance : IsTotal (Nat × Date) idxKeyLe := by
  constructor
  intro p q
  unfold idxKeyLe
  rw [dateLe_iff, dateLe_iff]
  omega

instance : IsTrans (Nat × Date) idxKeyLe := by
  constructor
  intro p q r hpq hqr
  unfold idxKeyLe at *
  rw [dateLe_iff] at *
  omega

theorem strLt_of_strLe_of_ne {a b : String} (hle : strLe a b) (hne : a ≠ b) :
    strLt a b := by
  unfold strLe strLeB at hle
  unfold strLt strLtB
  rcases Bool.or_eq_true_iff.mp hle with h | h
  · exact h
  · exact absurd (of_decide_eq_true h) hne

/-! ## `Except` plumbing -/

theorem exceptBind_ok_inv {ε α β : Type} {e : Except ε α} {f : α → Except ε β} {b : β}
    (h : (e >>= f) = .ok b) : ∃ a, e = .ok a ∧ f a = .ok b := by
  cases e with
  | error err =>
    exact absurd h (by simp [Bind.bind, Except.bind])
  | ok a =>
    refine ⟨a, rfl, ?_⟩
    simpa [Bind.bind, Except.bind] using h

theorem processCrs_ok_inv {bs : Int} {rounds : List Record} {out : SMap}
    (h : processCrsTrends bs rounds = .ok out) :
    ∃ acc m', chunkProcess crsRecordStep bs rounds = .ok acc ∧
      sortDataByDate acc = .ok m' ∧ out = orderByKey m' := by
  unfold processCrsTrends at h
  rcases exceptBind_ok_inv h with ⟨acc, hacc, h2⟩
  rcases exceptBind_ok_inv h2 with ⟨m', hm', h3⟩
  refine ⟨acc, m', hacc, hm', ?_⟩
  cases h3
  rfl

theorem processPool_ok_inv {bs : Int} {rounds : List Record} {out : SMap}
    (h : processPoolTrends bs rounds = .ok out) :
    ∃ acc m', chunkProcess poolRecordStep bs rounds = .ok acc ∧
      sortDataByDate acc = .ok m' ∧ out = orderByKey m' := by
  unfold processPoolTrends at h
  rcases exceptBind_ok_inv h with ⟨acc, hacc, h2⟩
  rcases exceptBind_ok_inv h2 with ⟨m', hm', h3⟩
  refine ⟨acc, m', hacc, hm', ?_⟩
  cases h3
  rfl

theorem chunkProcess_ok_inv {step : Record → SMap → SMap} {bs : Int}
    {rounds : List Record} {acc : SMap}
    (h : chunkProcess step bs rounds = .ok acc) :
    ∃ starts, acc = chunkFold step bs rounds starts := by
  unfold chunkProcess at h
  rcases exceptBind_ok_inv h with ⟨starts, _, h2⟩
  refine ⟨starts, ?_⟩
  cases h2
  rfl

theorem nodupKeys_chunkFold (step : Record → SMap → SMap) (bs : Int)
    (rounds : List Record) (starts : List Int) :
    NodupKeys (chunkFold step bs rounds starts) := by
  unfold chunkFold
  have : ∀ (l : List Int) (acc : SMap), NodupKeys acc →
      NodupKeys (l.foldl
        (fun acc i =>
          let batch := pySlice rounds i (i + bs)
          if batch.isEmpty then acc else mergeInto acc (batchData step batch)) acc) := by
    intro l
    induction l with
    | nil => intro acc h; exact h
    | cons i rest ih =>
      intro acc h
      rw [List.foldl_cons]
      apply ih
      by_cases hb : (pySlice rounds i (i + bs)).isEmpty = true
      · simpa [hb] using h
      · have hb' : (pySlice rounds i (i + bs)).isEmpty = false := by
          cases h2 : (pySlice rounds i (i + bs)).isEmpty
          · rfl
          · exact absurd h2 hb
        simpa [hb'] using nodupKeys_mergeInto _ h
  exact this starts [] (by simp [NodupKeys, keysOf])

/-! ## Sorter lemmas -/

theorem parseAll_none_iff {xs : List String} :
    parseAll xs = none ↔ ∃ d ∈ xs, parseDate d = none := by
  induction xs with
  | nil => simp [parseAll]
  | cons d rest ih =>
    simp only [parseAll]
    cases hd : parseDate d with
    | none => simp [hd]
    | some p =>
      cases hr : parseAll rest with
      | none =>
        simp only [List.mem_cons]
        constructor
        · intro _
          rcases ih.mp hr with ⟨d', hd', hp'⟩
          exact ⟨d', Or.inr hd', hp'⟩
        · intro _
          trivial
      | some ps =>
        simp only [List.mem_cons]
        constructor
        · intro h
          cases h
        · rintro ⟨d', hd' | hd', hp'⟩
          · rw [hd'] at hp'
            rw [hd] at hp'
            exact Option.noConfusion hp'
          · have hnone : parseAll rest = none := ih.mpr ⟨d', hd', hp'⟩
            rw [hnone] at hr
            exact Option.noConfusion hr

theorem parseAll_length {xs : List String} {ds : List Date}
    (h : parseAll xs = some ds) : ds.length = xs.length := by
  induction xs generalizing ds with
  | nil =>
    simp only [parseAll, Option.some.injEq] at h
    rw [← h]
    rfl
  | cons d rest ih =>
    simp only [parseAll] at h
    cases hd : parseDate d with
    | none => rw [hd] at h; cases h
    | some p =>
      rw [hd] at h
      cases hr : parseAll rest with
      | none => rw [hr] at h; cases h
      | some ps =>
        rw [hr] at h
        cases h
        simp [ih hr]

theorem parseAll_get {xs : List String} {ds : List Date}
    (h : parseAll xs = some ds) :
    ∀ i d, ds[i]? = some d → parseDate (xs.getD i "") = some d := by
  induction xs generalizing ds with
  | nil =>
    simp only [parseAll, Option.some.injEq] at h
    intro i d hd
    rw [← h] at hd
    simp at hd
  | cons x rest ih =>
    simp only [parseAll] at h
    cases hx : parseDate x with
    | none => rw [hx] at h; cases h
    | some p =>
      rw [hx] at h
      cases hr : parseAll rest with
      | none => rw [hr] at h; cases h
      | some ps =>
        rw [hr] at h
        cases h
        intro i d hd
        cases i with
        | zero =>
          simp only [List.getElem?_cons_zero, Option.some.injEq] at hd
          simpa [List.getD, hd] using hx
        | succ n =>
          simp only [List.getElem?_cons_succ] at hd
          simpa [List.getD] using ih hr n d hd

theorem sortOne_parse_fail {s : SeriesData} (h : parseAll s.x = none) :
    sortOneSeries s = .ok s := by
  unfold sortOneSeries
  rw [h]

/-- Any series accepted by the sorter comes out with equal-length `x`/`y`
and (when every date parses) chronologically sorted `x`. -/
theorem sortOne_ok_facts {s s' : SeriesData} {ds : List Date}
    (hp : parseAll s.x = some ds) (h : sortOneSeries s = .ok s') :
    s'.x.length = s'.y.length ∧
      s'.x.Pairwise (fun a b => ∃ pa pb, parseDate a = some pa ∧
        parseDate b = some pb ∧ dateLe pa pb = true) := by
  have h2 : sortWithDates s ds = .ok s' := by
    rw [← h]
    unfold sortOneSeries
    rw [hp]
  unfold sortWithDates at h2
  by_cases hall : (sortedIndices ds).all (fun i => i < s.y.length) = true
  · rw [if_pos hall] at h2
    cases h2
    constructor
    · simp
    · have hsorted : List.Pairwise idxKeyLe (List.insertionSort idxKeyLe ds.enum) :=
        List.sorted_insertionSort idxKeyLe ds.enum
      unfold sortedIndices
      rw [List.map_map, List.pairwise_map]
      apply List.Pairwise.imp_of_mem ?_ hsorted
      intro p q hpmem hqmem hle
      have hpd : ds[p.1]? = some p.2 := by
        have hpe : p ∈ ds.enum := (List.mem_insertionSort idxKeyLe).mp hpmem
        exact List.mk_mem_enum_iff_getElem?.mp (by simpa using hpe)
      have hqd : ds[q.1]? = some q.2 := by
        have hqe : q ∈ ds.enum := (List.mem_insertionSort idxKeyLe).mp hqmem
        exact List.mk_mem_enum_iff_getElem?.mp (by simpa using hqe)
      exact ⟨p.2, q.2, parseAll_get hp p.1 p.2 hpd, parseAll_get hp q.1 q.2 hqd, hle⟩
  · rw [if_neg hall] at h2
    exact Except.noConfusion h2

/-- The sorter treats the series one by one: the result pairs each input
entry with the (attempted) sort of exactly its own series. -/
theorem sortData_forall₂ {m m' : SMap} (h : sortDataByDate m = .ok m') :
    List.Forall₂ (fun kv kv' => kv.1 = kv'.1 ∧ sortOneSeries kv.2 = .ok kv'.2) m m' := by
  induction m generalizing m' with
  | nil =>
    simp only [sortDataByDate, Except.ok.injEq] at h
    rw [← h]
    exact List.Forall₂.nil
  | cons kv rest ih =>
    simp only [sortDataByDate] at h
    cases hs : sortOneSeries kv.2 with
    | error e =>
      rw [hs] at h
      exact absurd h (by simp [Bind.bind, Except.bind])
    | ok s =>
      rw [hs] at h
      cases hr : sortDataByDate rest with
      | error e =>
        rw [hr] at h
        exact absurd h (by simp [Bind.bind, Except.bind])
      | ok rest' =>
        rw [hr] at h
        simp only [Bind.bind, Except.bind, pure, Except.pure, Except.ok.injEq] at h
        rw [← h]
        exact List.Forall₂.cons ⟨rfl, hs⟩ (ih hr)

theorem sortPairs_keysOf {m m' : SMap}
    (h2 : List.Forall₂ (fun kv kv' => kv.1 = kv'.1 ∧ sortOneSeries kv.2 = .ok kv'.2) m m') :
    keysOf m' = keysOf m := by
  induction h2 with
  | nil => rfl
  | cons hr ht ih =>
    simp only [keysOf, List.map_cons] at ih ⊢
    rename_i a b l₁ l₂
    rw [ih, hr.1]

theorem sortPairs_mem {m m' : SMap}
    (h2 : List.Forall₂ (fun kv kv' => kv.1 = kv'.1 ∧ sortOneSeries kv.2 = .ok kv'.2) m m')
    {k : String} {s : SeriesData} (hmem : (k, s) ∈ m') :
    ∃ s₀, (k, s₀) ∈ m ∧ sortOneSeries s₀ = .ok s := by
  induction h2 with
  | nil => cases hmem
  | cons hr ht ih =>
    rename_i a b l₁ l₂
    rcases List.mem_cons.mp hmem with he | hmem'
    · subst he
      refine ⟨a.2, ?_, hr.2⟩
      have hk : a.1 = k := hr.1
      have hmk : (a.1, a.2) ∈ a :: l₁ := by
        rw [Prod.mk.eta]
        exact List.mem_cons_self a l₁
      rw [← hk]
      exact hmk
    · rcases ih hmem' with ⟨s₀, hs₀, hsort⟩
      exact ⟨s₀, List.mem_cons_of_mem _ hs₀, hsort⟩

theorem sortPairs_mem_fwd {m m' : SMap}
    (h2 : List.Forall₂ (fun kv kv' => kv.1 = kv'.1 ∧ sortOneSeries kv.2 = .ok kv'.2) m m')
    {k : String} {s : SeriesData} (hmem : (k, s) ∈ m)
    (hfix : sortOneSeries s = .ok s) : (k, s) ∈ m' := by
  induction h2 with
  | nil => cases hmem
  | cons hr ht ih =>
    rename_i a b l₁ l₂
    rcases List.mem_cons.mp hmem with he | hmem'
    · have ha : a = (k, s) := he.symm
      subst ha
      have hk : k = b.1 := hr.1
      have hs : (Except.ok s : Except PyErr SeriesData) = Except.ok b.2 := by
        rw [← hr.2, hfix]
      have hs' : s = b.2 := by
        cases hs
        rfl
      have hb : (b.1, b.2) ∈ b :: l₂ := by
        rw [Prod.mk.eta]
        exact List.mem_cons_self b l₂
      rw [hk, hs']
      exact hb
    · exact List.mem_cons_of_mem _ (ih hmem')

/-! ## Lookup and key-ordering lemmas -/

theorem alookup_mem {β : Type} {m : List (String × β)} {k : String} {v : β}
    (h : alookup m k = some v) : (k, v) ∈ m := by
  induction m with
  | nil => cases h
  | cons kv rest ih =>
    unfold alookup at h
    by_cases hk : kv.1 = k
    · rw [if_pos hk] at h
      cases h
      rw [← hk, Prod.mk.eta]
      exact List.mem_cons_self _ _
    · rw [if_neg hk] at h
      exact List.mem_cons_of_mem _ (ih h)

theorem alookup_isSome_of_mem_keys {β : Type} {m : List (String × β)} {k : String}
    (h : k ∈ keysOf m) : ∃ v, alookup m k = some v := by
  induction m with
  | nil => cases h
  | cons kv rest ih =>
    unfold alookup
    by_cases hk : kv.1 = k
    · exact ⟨kv.2, by rw [if_pos hk]⟩
    · rcases List.mem_cons.mp h with he | hmem
      · exact absurd he.symm hk
      · rcases ih hmem with ⟨v, hv⟩
        exact ⟨v, by rw [if_neg hk]; exact hv⟩

theorem alookup_eq_of_mem_nodup {β : Type} {m : List (String × β)} {k : String} {v : β}
    (hnd : NodupKeys m) (h : (k, v) ∈ m) : alookup m k = some v := by
  induction m with
  | nil => cases h
  | cons kv rest ih =>
    unfold NodupKeys keysOf at hnd
    rw [List.map_cons, List.nodup_cons] at hnd
    unfold alookup
    rcases List.mem_cons.mp h with he | hmem
    · rw [← he]
      simp
    · have hk : kv.1 ≠ k := by
        intro hek
        exact hnd.1 (hek ▸ List.mem_map_of_mem (fun kv => kv.1) hmem)
      rw [if_neg hk]
      exact ih hnd.2 hmem

theorem keysOf_orderByKey (m : SMap) :
    keysOf (orderByKey m) = List.insertionSort strLe (keysOf m) := by
  unfold orderByKey keysOf
  rw [List.map_map]
  conv_rhs => rw [← List.map_id (List.insertionSort strLe (List.map (fun kv => kv.1) m))]
  apply List.map_congr_left
  intro k _
  rfl

theorem mem_orderByKey_iff {m : SMap} {k : String} {s : SeriesData} :
    (k, s) ∈ orderByKey m ↔
      k ∈ keysOf m ∧ s = (alookup m k).getD (mkEmptySeries k) := by
  unfold orderByKey
  rw [List.mem_map]
  constructor
  · rintro ⟨k', hk', he⟩
    have h1 : k' = k := congrArg Prod.fst he
    subst h1
    have h2 : s = (alookup m k').getD (mkEmptySeries k') := (congrArg Prod.snd he).symm
    exact ⟨(List.mem_insertionSort strLe).mp (by simpa [keysOf] using hk'), h2⟩
  · rintro ⟨hk, hs⟩
    refine ⟨k, ?_, by rw [hs]⟩
    rw [List.mem_insertionSort strLe]
    simpa [keysOf] using hk

theorem pairwise_strLt_orderByKey {m : SMap} (hnd : NodupKeys m) :
    (keysOf (orderByKey m)).Pairwise strLt := by
  rw [keysOf_orderByKey]
  have hsorted : List.Pairwise strLe (List.insertionSort strLe (keysOf m)) :=
    List.sorted_insertionSort strLe (keysOf m)
  have hnodup : (List.insertionSort strLe (keysOf m)).Nodup :=
    (List.perm_insertionSort strLe (keysOf m)).nodup_iff.mpr hnd
  have hand := List.Pairwise.and hsorted hnodup
  exact hand.imp (fun h => strLt_of_strLe_of_ne h.1 h.2)

/-! ## Batch-size invariance of the two chunked transforms -/

theorem processCrs_eq_one {bs : Int} (hbs : 0 < bs) (rounds : List Record) :
    processCrsTrends bs rounds = processCrsTrends 1 rounds := by
  unfold processCrsTrends
  rw [chunkProcess_eq_fold crsRecordStep mergeInto_crsStep nodupKeys_crsStep bs hbs rounds,
    chunkProcess_eq_fold crsRecordStep mergeInto_crsStep nodupKeys_crsStep 1 (by omega) rounds]

theorem processPool_eq_one {bs : Int} (hbs : 0 < bs) (rounds : List Record) :
    processPoolTrends bs rounds = processPoolTrends 1 rounds := by
  unfold processPoolTrends
  rw [chunkProcess_eq_fold poolRecordStep mergeInto_poolStep nodupKeys_poolStep bs hbs rounds,
    chunkProcess_eq_fold poolRecordStep mergeInto_poolStep nodupKeys_poolStep 1 (by omega) rounds]

/-- C3: the score-trend and pool-trend transforms produce identical
results with batch size 1 and with batch size N = length of the record
list — directly for every non-empty list, and for every list (the empty
one included) when batch size N is configured through the constructor,
which coerces the falsy 0 to the default: the chunk size has no effect on
the final output. -/
theorem claim_C3_batching_invariant :
    (∀ rounds : List Record,
      processCrsTrends 1 rounds =
        processCrsTrends (initBatchSize (some (rounds.length : Int))) rounds ∧
      processPoolTrends 1 rounds =
        processPoolTrends (initBatchSize (some (rounds.length : Int))) rounds) ∧
    ∀ rounds : List Record, rounds ≠ [] →
      processCrsTrends 1 rounds = processCrsTrends (rounds.length : Int) rounds ∧
      processPoolTrends 1 rounds = processPoolTrends (rounds.length : Int) rounds := by
  constructor
  · intro rounds
    have hpos : 0 < initBatchSize (some (rounds.length : Int)) := by
      show 0 < (if (rounds.length : Int) = 0 then 8 else (rounds.length : Int))
      by_cases h : (rounds.length : Int) = 0
      · rw [if_pos h]
        omega
      · rw [if_neg h]
        omega
    exact ⟨(processCrs_eq_one hpos rounds).symm, (processPool_eq_one hpos rounds).symm⟩
  · intro rounds hne
    have hlen : 0 < (rounds.length : Int) := by
      have h0 : rounds.length ≠ 0 := fun h => hne (List.length_eq_zero.mp h)
      omega
    exact ⟨(processCrs_eq_one hlen rounds).symm, (processPool_eq_one hlen rounds).symm⟩

/-- Witness for C3 at a concrete two-record list. -/
theorem claim_C3_batching_invariant_witness :
    ([sampleCrsA, sampleCrsB] : List Record) ≠ [] ∧
      processCrsTrends 1 [sampleCrsA, sampleCrsB] =
        processCrsTrends (([sampleCrsA, sampleCrsB] : List Record).length : Int)
          [sampleCrsA, sampleCrsB] ∧
      processPoolTrends 1 [sampleCrsA, sampleCrsB] =
        processPoolTrends (([sampleCrsA, sampleCrsB] : List Record).length : Int)
          [sampleCrsA, sampleCrsB] :=
  ⟨by decide, (claim_C3_batching_invariant.2 [sampleCrsA, sampleCrsB] (by decide)).1,
    (claim_C3_batching_invariant.2 [sampleCrsA, sampleCrsB] (by decide)).2⟩

/-- With a negative batch size, `range(0, len(rounds), batch_size)` is
empty and the chunked transforms return the empty collection. -/
theorem processCrs_neg_batch {b : Int} (hb : b < 0) (rounds : List Record) :
    processCrsTrends b rounds = .ok [] := by
  have hrange : pyRange 0 (rounds.length : Int) b = .ok [] := by
    unfold pyRange
    rw [if_neg (by omega), if_neg (by omega), if_neg (by omega)]
  unfold processCrsTrends chunkProcess
  rw [hrange]
  rfl

theorem processPool_neg_batch {b : Int} (hb : b < 0) (rounds : List Record) :
    processPoolTrends b rounds = .ok [] := by
  have hrange : pyRange 0 (rounds.length : Int) b = .ok [] := by
    unfold pyRange
    rw [if_neg (by omega), if_neg (by omega), if_neg (by omega)]
  unfold processPoolTrends chunkProcess
  rw [hrange]
  rfl

/-- C10: a zero batch size is silently replaced by the default 8 in the
constructor, and a negative batch size is accepted unchanged, in which
case both chunked transforms return the empty collection on every
non-empty record list. -/
theorem claim_C10_nonpositive_batch :
    initBatchSize (some 0) = 8 ∧
    ∀ b : Int, b < 0 → initBatchSize (some b) = b ∧
      ∀ rounds : List Record, rounds ≠ [] →
        processCrsTrends b rounds = .ok [] ∧ processPoolTrends b rounds = .ok [] := by
  refine ⟨rfl, ?_⟩
  intro b hb
  constructor
  · show (if b = 0 then 8 else b) = b
    rw [if_neg (by omega)]
  · intro rounds _
    exact ⟨processCrs_neg_batch hb rounds, processPool_neg_batch hb rounds⟩

/-- Witness for C10 at batch size -1 and a one-record list. -/
theorem claim_C10_nonpositive_batch_witness :
    ((-1 : Int) < 0) ∧ ([sampleCrsA] : List Record) ≠ [] ∧
      initBatchSize (some (-1)) = -1 ∧
      processCrsTrends (-1) [sampleCrsA] = .ok [] ∧
      processPoolTrends (-1) [sampleCrsA] = .ok [] :=
  ⟨by decide, by decide,
    (claim_C10_nonpositive_batch.2 (-1) (by decide)).1,
    ((claim_C10_nonpositive_batch.2 (-1) (by decide)).2 [sampleCrsA] (by decide)).1,
    ((claim_C10_nonpositive_batch.2 (-1) (by decide)).2 [sampleCrsA] (by decide)).2⟩

/-- C4 counterexample: a non-positive batch size is not rejected.  Zero is
silently replaced by the default 8 and processing proceeds normally; a
negative batch size is stored unchanged and processing also proceeds
(returning empty collections), so no input validation error occurs. -/
theorem claim_C4_counterexample :
    initBatchSize (some 0) = 8 ∧ initBatchSize (some (-2)) = -2 ∧
    processCrsTrends (initBatchSize (some 0)) [sampleCrsA] =
      .ok [("General", { x := ["2024-02-01"], y := [500], typ := "scatter", mode := "lines+markers", name := "General" })] ∧
    processCrsTrends (-2) [sampleCrsA] = .ok [] :=
  ⟨rfl, rfl, rfl, rfl⟩

/-- C4 amended: the processor performs no batch-size validation; a zero
batch size is silently replaced by the default 8 and a negative one is
kept unchanged, and processing proceeds in either case. -/
theorem claim_C4_amended :
    ∀ b : Int, b ≤ 0 → initBatchSize (some b) = (if b = 0 then 8 else b) := by
  intro b _
  unfold initBatchSize
  rfl

/-- Witness for the amended C4 at batch size -3. -/
theorem claim_C4_amended_witness :
    ((-3 : Int) ≤ 0) ∧ initBatchSize (some (-3)) = (if (-3 : Int) = 0 then 8 else -3) :=
  ⟨by decide, claim_C4_amended (-3) (by decide)⟩

/-- C7: the end-to-end example.  On the two example records with batch
size 1 the score-trend output has exactly the key "General" with
x = [2024-01-01, 2024-02-01] and y = [600, 500]. -/
theorem claim_C7_end_to_end :
    processCrsTrends 1 [sampleCrsA, sampleCrsB] =
      .ok [("General", { x := ["2024-01-01", "2024-02-01"], y := [600, 500], typ := "scatter", mode := "lines+markers", name := "General" })] := rfl

/-- C1: a single record whose name and date fields are present and valid
but whose cutoff score is not numeric after comma removal does abort the
whole run: the date is appended to `x` before the score parse fails, and
the sorter's `y` reindexing then raises an uncaught `IndexError`, so the
pipeline does not complete over the remaining records. -/
theorem claim_C1_run_aborts :
    parseNumericValue "12x" = none ∧
    lookupField badScoreRec "drawName" = some "A" ∧
    lookupField badScoreRec "drawDate" = some "2024-01-01" ∧
    processAllTrends 8 [badScoreRec] = .error .indexError :=
  ⟨rfl, rfl, rfl, rfl⟩

/-- C5: one malformed pool field does block the others.  With `dd1`
non-numeric and `dd2` well-formed, the per-record pool step stops at
`dd1`: `dd2` is never appended (its range key is absent), and the run
then aborts in the sorter with an uncaught `IndexError`. -/
theorem claim_C5_field_abort :
    lookupField poolBadFieldRec "dd2" = some "100" ∧
    poolRecordStep poolBadFieldRec [] =
      [("CRS Range: 601-1200", { x := ["2024-01-01"], y := [], typ := "scatter", mode := "lines+markers", name := "Crs Range: 601-1200" })] ∧
    processPoolTrends 8 [poolBadFieldRec] = .error .indexError :=
  ⟨rfl, rfl, rfl⟩

/-- C8: for every batch size and record list, the keys of a successfully
produced score-trend or pool-trend output are unique and appear in
strictly ascending lexicographic order. -/
theorem claim_C8_keys_sorted :
    ∀ (bs : Int) (rounds : List Record) (out : SMap),
      (processCrsTrends bs rounds = .ok out ∨ processPoolTrends bs rounds = .ok out) →
      (keysOf out).Nodup ∧ (keysOf out).Pairwise strLt := by
  intro bs rounds out h
  have hkey : ∃ m' : SMap, NodupKeys m' ∧ out = orderByKey m' := by
    rcases h with h | h
    · rcases processCrs_ok_inv h with ⟨acc, m', hacc, hsort, hout⟩
      rcases chunkProcess_ok_inv hacc with ⟨starts, heq⟩
      refine ⟨m', ?_, hout⟩
      unfold NodupKeys
      rw [sortPairs_keysOf (sortData_forall₂ hsort)]
      rw [heq] at *
      exact nodupKeys_chunkFold crsRecordStep bs rounds starts
    · rcases processPool_ok_inv h with ⟨acc, m', hacc, hsort, hout⟩
      rcases chunkProcess_ok_inv hacc with ⟨starts, heq⟩
      refine ⟨m', ?_, hout⟩
      unfold NodupKeys
      rw [sortPairs_keysOf (sortData_forall₂ hsort)]
      rw [heq] at *
      exact nodupKeys_chunkFold poolRecordStep bs rounds starts
  rcases hkey with ⟨m', hnd, hout⟩
  subst hout
  constructor
  · rw [keysOf_orderByKey]
    exact (List.perm_insertionSort strLe (keysOf m')).nodup_iff.mpr hnd
  · exact pairwise_strLt_orderByKey hnd

/-- Witness for C8 on a concrete score-trend run. -/
theorem claim_C8_keys_sorted_witness :
    processCrsTrends 8 [sampleCrsA, sampleCrsB] =
      .ok [("General", { x := ["2024-01-01", "2024-02-01"], y := [600, 500], typ := "scatter", mode := "lines+markers", name := "General" })] ∧
    ((keysOf [("General", ({ x := ["2024-01-01", "2024-02-01"], y := [600, 500], typ := "scatter", mode := "lines+markers", name := "General" } : SeriesData))]).Nodup ∧
      (keysOf [("General", ({ x := ["2024-01-01", "2024-02-01"], y := [600, 500], typ := "scatter", mode := "lines+markers", name := "General" } : SeriesData))]).Pairwise strLt) :=
  ⟨rfl, claim_C8_keys_sorted 8 [sampleCrsA, sampleCrsB] _ (Or.inl rfl)⟩

/-- C9: a date-parse failure inside the sorter is a soft failure: the
affected series is passed through exactly as accumulated (no error), and
the sorter treats every series independently, pairing each entry of the
collection with the sort of exactly its own series. -/
theorem claim_C9_sort_soft_failure :
    (∀ s : SeriesData, (∃ d ∈ s.x, parseDate d = none) → sortOneSeries s = .ok s) ∧
    (∀ m m' : SMap, sortDataByDate m = .ok m' →
      List.Forall₂ (fun kv kv' => kv.1 = kv'.1 ∧ sortOneSeries kv.2 = .ok kv'.2) m m' ∧
      ∀ k s, (k, s) ∈ m → (∃ d ∈ s.x, parseDate d = none) → (k, s) ∈ m') := by
  constructor
  · intro s h
    exact sortOne_parse_fail (parseAll_none_iff.mpr h)
  · intro m m' h
    refine ⟨sortData_forall₂ h, ?_⟩
    intro k s hmem hfail
    exact sortPairs_mem_fwd (sortData_forall₂ h) hmem
      (sortOne_parse_fail (parseAll_none_iff.mpr hfail))

/-- Witness for C9 on a concrete series with an unparseable date. -/
theorem claim_C9_sort_soft_failure_witness :
    sortOneSeries badDateSeries = .ok badDateSeries :=
  claim_C9_sort_soft_failure.1 badDateSeries
    ⟨"nodate", by decide, by decide⟩

/-! ## Draw-size lemmas (C6) -/

theorem mem_keysOf_bumpInv {inv : List (String × Int)} {k m : String} {v : Int} :
    m ∈ keysOf (bumpInv inv k v) ↔ m ∈ keysOf inv ∨ m = k := by
  unfold bumpInv
  by_cases h : containsKey k inv = true
  · rw [if_pos h]
    constructor
    · intro hm
      left
      unfold keysOf at hm ⊢
      rw [List.map_map] at hm
      rcases List.mem_map.mp hm with ⟨kv, hkv, he⟩
      apply List.mem_map.mpr
      refine ⟨kv, hkv, ?_⟩
      rw [← he]
      by_cases hk : kv.1 = k <;> simp [hk]
    · intro hm
      unfold keysOf at *
      rw [List.map_map]
      rcases hm with hm | hm
      · rcases List.mem_map.mp hm with ⟨kv, hkv, he⟩
        apply List.mem_map.mpr
        refine ⟨kv, hkv, ?_⟩
        rw [← he]
        by_cases hk : kv.1 = k <;> simp [hk]
      · subst hm
        rcases List.mem_map.mp (containsKey_iff.mp h) with ⟨kv, hkv, he⟩
        apply List.mem_map.mpr
        refine ⟨kv, hkv, ?_⟩
        simp [he]
  · rw [if_neg h]
    rw [keysOf_append]
    simp [keysOf, List.mem_append]

theorem nodupKeys_bumpInv {inv : List (String × Int)} {k : String} {v : Int}
    (h : NodupKeys inv) : NodupKeys (bumpInv inv k v) := by
  unfold bumpInv
  by_cases hc : containsKey k inv = true
  · rw [if_pos hc]
    unfold NodupKeys keysOf at *
    rw [List.map_map]
    have : inv.map ((fun kv => kv.1) ∘ fun kv =>
        if kv.1 = k then (kv.1, kv.2 + v) else kv) = inv.map (fun kv => kv.1) := by
      apply List.map_congr_left
      intro kv _
      by_cases hk : kv.1 = k <;> simp [hk]
    rw [this]
    exact h
  · have hc' : containsKey k inv = false := by
      cases h2 : containsKey k inv
      · rfl
      · exact absurd h2 hc
    rw [if_neg hc]
    unfold NodupKeys at *
    rw [keysOf_append]
    simp only [keysOf, List.map_cons, List.map_nil]
    rw [List.nodup_append]
    refine ⟨h, List.nodup_singleton _, ?_⟩
    intro a ha hb
    rw [List.mem_singleton] at hb
    exact (containsKey_false_iff.mp hc') (hb ▸ ha)

theorem mem_keysOf_appendCand {cand : List (String × List Int)} {k m : String} {v : Int} :
    m ∈ keysOf (appendCand cand k v) ↔ m ∈ keysOf cand ∨ m = k := by
  unfold appendCand
  by_cases h : containsKey k cand = true
  · rw [if_pos h]
    constructor
    · intro hm
      left
      unfold keysOf at hm ⊢
      rw [List.map_map] at hm
      rcases List.mem_map.mp hm with ⟨kv, hkv, he⟩
      apply List.mem_map.mpr
      refine ⟨kv, hkv, ?_⟩
      rw [← he]
      by_cases hk : kv.1 = k <;> simp [hk]
    · intro hm
      unfold keysOf at *
      rw [List.map_map]
      rcases hm with hm | hm
      · rcases List.mem_map.mp hm with ⟨kv, hkv, he⟩
        apply List.mem_map.mpr
        refine ⟨kv, hkv, ?_⟩
        rw [← he]
        by_cases hk : kv.1 = k <;> simp [hk]
      · subst hm
        rcases List.mem_map.mp (containsKey_iff.mp h) with ⟨kv, hkv, he⟩
        apply List.mem_map.mpr
        refine ⟨kv, hkv, ?_⟩
        simp [he]
  · rw [if_neg h]
    rw [keysOf_append]
    simp [keysOf, List.mem_append]

theorem nodupKeys_appendCand {cand : List (String × List Int)} {k : String} {v : Int}
    (h : NodupKeys cand) : NodupKeys (appendCand cand k v) := by
  unfold appendCand
  by_cases hc : containsKey k cand = true
  · rw [if_pos hc]
    unfold NodupKeys keysOf at *
    rw [List.map_map]
    have : cand.map ((fun kv => kv.1) ∘ fun kv =>
        if kv.1 = k then (kv.1, kv.2 ++ [v]) else kv) = cand.map (fun kv => kv.1) := by
      apply List.map_congr_left
      intro kv _
      by_cases hk : kv.1 = k <;> simp [hk]
    rw [this]
    exact h
  · have hc' : containsKey k cand = false := by
      cases h2 : containsKey k cand
      · rfl
      · exact absurd h2 hc
    rw [if_neg hc]
    unfold NodupKeys at *
    rw [keysOf_append]
    simp only [keysOf, List.map_cons, List.map_nil]
    rw [List.nodup_append]
    refine ⟨h, List.nodup_singleton _, ?_⟩
    intro a ha hb
    rw [List.mem_singleton] at hb
    exact (containsKey_false_iff.mp hc') (hb ▸ ha)

theorem dsInv_step {st : List (String × Int) × List (String × List Int)}
    (h : DSInv st) (rd : Record) : DSInv (drawSizeStep st rd) := by
  unfold drawSizeStep
  cases lookupField rd "drawDate" with
  | none => exact h
  | some drawDate =>
    simp only
    cases lookupField rd "drawSize" with
    | none => exact h
    | some sizeStr =>
      simp only
      cases parseNumericValue sizeStr with
      | none => exact h
      | some size =>
        simp only
        have hinv1 : NodupKeys (bumpInv st.1 (yearMonth drawDate) size) :=
          nodupKeys_bumpInv h.1
        have hsub1 : ∀ m, m ∈ keysOf st.2 →
            m ∈ keysOf (bumpInv st.1 (yearMonth drawDate) size) := by
          intro m hm
          exact mem_keysOf_bumpInv.mpr (Or.inl (h.2.2 m hm))
        cases lookupField rd "dd18" with
        | none => exact ⟨hinv1, h.2.1, hsub1⟩
        | some candStr =>
          simp only
          cases parseNumericValue candStr with
          | none => exact ⟨hinv1, h.2.1, hsub1⟩
          | some v =>
            refine ⟨hinv1, nodupKeys_appendCand h.2.1, ?_⟩
            intro m hm
            rcases mem_keysOf_appendCand.mp hm with hm | hm
            · exact hsub1 m hm
            · subst hm
              exact mem_keysOf_bumpInv.mpr (Or.inr rfl)

theorem drawSizeMaps_inv (rounds : List Record) : DSInv (drawSizeMaps rounds) := by
  unfold drawSizeMaps
  have haux : ∀ (l : List Record) st, DSInv st → DSInv (l.foldl drawSizeStep st) := by
    intro l
    induction l with
    | nil => intro st h; exact h
    | cons rd rest ih =>
      intro st h
      rw [List.foldl_cons]
      exact ih _ (dsInv_step h rd)
  exact haux rounds ([], []) ⟨List.nodup_nil, List.nodup_nil, fun m hm => by cases hm⟩

theorem keysOf_validMonths_sublist (cand : List (String × List Int)) :
    List.Sublist (keysOf (validMonths cand)) (keysOf cand) := by
  unfold validMonths keysOf
  have h1 : List.Sublist
      ((cand.map (fun kv => (kv.1, meanOf kv.2))).filter (fun kv => fracPos kv.2))
      (cand.map (fun kv => (kv.1, meanOf kv.2))) := List.filter_sublist _
  have h2 := h1.map (fun kv => kv.1)
  rw [List.map_map] at h2
  have h3 : cand.map ((fun kv => kv.1) ∘ fun kv => (kv.1, meanOf kv.2)) =
      cand.map (fun kv => kv.1) := by
    apply List.map_congr_left
    intro kv _
    rfl
  rw [h3] at h2
  exact h2

theorem mem_validMonths_iff {cand : List (String × List Int)} (hnd : NodupKeys cand)
    {m : String} {f : Frac} :
    (m, f) ∈ validMonths cand ↔
      ∃ cs, alookup cand m = some cs ∧ f = meanOf cs ∧ fracPos f = true := by
  unfold validMonths
  rw [List.mem_filter]
  constructor
  · rintro ⟨hmem, hpos⟩
    rcases List.mem_map.mp hmem with ⟨kv, hkv, he⟩
    have hk : kv.1 = m := congrArg Prod.fst he
    have hf : meanOf kv.2 = f := congrArg Prod.snd he
    refine ⟨kv.2, ?_, hf.symm, hpos⟩
    rw [← hk]
    refine alookup_eq_of_mem_nodup hnd ?_
    rw [Prod.mk.eta]
    exact hkv
  · rintro ⟨cs, hcs, hf, hpos⟩
    refine ⟨List.mem_map.mpr ⟨(m, cs), alookup_mem hcs, by rw [hf]⟩, hpos⟩

theorem mem_dsSortedMonths_iff {rounds : List Record} {m : String} :
    m ∈ dsSortedMonths rounds ↔
      ∃ cs, alookup (drawSizeMaps rounds).2 m = some cs ∧ fracPos (meanOf cs) = true := by
  unfold dsSortedMonths
  rw [List.mem_insertionSort]
  constructor
  · intro hm
    rcases List.mem_map.mp hm with ⟨kv, hkv, he⟩
    subst he
    have := (mem_validMonths_iff (drawSizeMaps_inv rounds).2.1
      (m := kv.1) (f := kv.2)).mp (by rw [Prod.mk.eta]; exact hkv)
    rcases this with ⟨cs, hcs, hf, hpos⟩
    exact ⟨cs, hcs, by rw [← hf]; exact hpos⟩
  · rintro ⟨cs, hcs, hpos⟩
    apply List.mem_map.mpr
    refine ⟨(m, meanOf cs), ?_, rfl⟩
    exact (mem_validMonths_iff (drawSizeMaps_inv rounds).2.1).mpr ⟨cs, hcs, rfl, hpos⟩

theorem alookup_filterMap_inv {inv : List (String × Int)} :
    ∀ (ms : List String), ms.Nodup →
      ∀ m v, m ∈ ms → alookup inv m = some v →
        alookup (ms.filterMap (fun m' => (alookup inv m').map (fun w => (m', w)))) m
          = some v := by
  intro ms
  induction ms with
  | nil => intro _ m v hm; cases hm
  | cons m' rest ih =>
    intro hnd m v hm hv
    rw [List.filterMap_cons]
    by_cases he : m' = m
    · subst he
      rw [hv]
      simp only [Option.map_some']
      unfold alookup
      rw [if_pos rfl]
    · have hm' : m ∈ rest := by
        rcases List.mem_cons.mp hm with h | h
        · exact absurd h.symm he
        · exact h
      have hnd' : rest.Nodup := (List.nodup_cons.mp hnd).2
      cases halo : alookup inv m' with
      | none =>
        simp only [halo, Option.map_none']
        exact ih hnd' m v hm' hv
      | some w =>
        simp only [halo, Option.map_some']
        unfold alookup
        rw [if_neg he]
        exact ih hnd' m v hm' hv

theorem lookupAll_ok_of_all {inv' : List (String × Int)} (f : String → Int) :
    ∀ ms : List String, (∀ m ∈ ms, alookup inv' m = some (f m)) →
      lookupAll inv' ms = .ok (ms.map f) := by
  intro ms
  induction ms with
  | nil => intro _; rfl
  | cons m rest ih =>
    intro h
    unfold lookupAll
    rw [h m (List.mem_cons_self m rest), ih (fun m' hm' => h m' (List.mem_cons_of_mem m hm'))]
    rfl

/-- The draw-size transform never raises: every surviving month has an
invitation sum, so the line-361 lookups all succeed.  The result is fully
characterized. -/
theorem drawSizeTrends_ok (rounds : List Record) :
    drawSizeTrends rounds =
      .ok [{ x := dsSortedMonths rounds,
             y := (dsSortedMonths rounds).map
               (fun m => intFrac ((alookup (drawSizeMaps rounds).1 m).getD 0)),
             typ := "scatter", mode := "lines+markers", name := "Draw Invitations" },
           { x := dsSortedMonths rounds,
             y := (dsSortedMonths rounds).map
               (fun m => (alookup (dsValid rounds) m).getD (intFrac 0)),
             typ := "scatter", mode := "lines+markers",
             name := "Total(Mean) Candidates" }] := by
  have hndvalid : ((dsValid rounds).map (fun kv => kv.1)).Nodup := by
    have hsub := keysOf_validMonths_sublist (drawSizeMaps rounds).2
    exact List.Nodup.sublist hsub (drawSizeMaps_inv rounds).2.1
  have hall : ∀ m ∈ dsSortedMonths rounds,
      alookup (dsFilteredInv rounds) m =
        some ((alookup (drawSizeMaps rounds).1 m).getD 0) := by
    intro m hm
    have hmv : m ∈ (dsValid rounds).map (fun kv => kv.1) := by
      unfold dsSortedMonths at hm
      exact (List.mem_insertionSort strLe).mp hm
    have hmc : m ∈ keysOf (drawSizeMaps rounds).2 := by
      have hsub := keysOf_validMonths_sublist (drawSizeMaps rounds).2
      exact List.Sublist.mem hmv hsub
    have hmi : m ∈ keysOf (drawSizeMaps rounds).1 := (drawSizeMaps_inv rounds).2.2 m hmc
    rcases alookup_isSome_of_mem_keys hmi with ⟨v, hv⟩
    rw [hv]
    unfold dsFilteredInv
    exact alookup_filterMap_inv _ hndvalid m v hmv hv
  have hlook := lookupAll_ok_of_all
    (fun m => (alookup (drawSizeMaps rounds).1 m).getD 0) (dsSortedMonths rounds) hall
  unfold drawSizeTrends
  rw [hlook]
  show Except.ok _ = _
  rw [List.map_map]
  rfl

/-- C6: in the draw-size output, a month appears exactly when its mean
candidate count is positive, so every month with an empty candidate list
or a zero mean is absent from both series; the two series share the same
x axis, the surviving months sorted ascending; and the invitation series
is exactly the invitation-sum lookup restricted to those months. -/
theorem claim_C6_draw_size_months :
    ∀ (rounds : List Record) (out : List DSeries), drawSizeTrends rounds = .ok out →
      ∃ s1 s2, out = [s1, s2] ∧
        s1.x = s2.x ∧
        s1.x = List.insertionSort strLe
          ((validMonths (drawSizeMaps rounds).2).map (fun kv => kv.1)) ∧
        (∀ m : String, m ∈ s1.x ↔
          ∃ cs, alookup (drawSizeMaps rounds).2 m = some cs ∧ fracPos (meanOf cs) = true) ∧
        (∀ m cs, alookup (drawSizeMaps rounds).2 m = some cs →
          (cs = [] ∨ (meanOf cs).num = 0) → m ∉ s1.x) ∧
        s1.y = s1.x.map (fun m => intFrac ((alookup (drawSizeMaps rounds).1 m).getD 0)) := by
  intro rounds out h
  rw [drawSizeTrends_ok rounds] at h
  have hout := (Except.ok.injEq _ _).mp h.symm
  refine ⟨_, _, hout, rfl, rfl, ?_, ?_, rfl⟩
  · intro m
    exact mem_dsSortedMonths_iff
  · intro m cs hcs hz hmem
    rcases mem_dsSortedMonths_iff.mp hmem with ⟨cs', hcs', hpos⟩
    rw [hcs] at hcs'
    have hcc : cs = cs' := by
      cases hcs'
      rfl
    subst hcc
    rcases hz with hz | hz
    · subst hz
      simp [meanOf, fracPos] at hpos
    · unfold fracPos at hpos
      rw [hz] at hpos
      simp at hpos

/-- Witness for C6 on two concrete records: the zero-mean month 2024-01
is dropped, the positive month 2024-02 survives in both series. -/
theorem claim_C6_draw_size_months_witness :
    drawSizeTrends [dsZeroMeanRec, dsPosMeanRec] =
      .ok [{ x := ["2024-02"], y := [intFrac 20], typ := "scatter", mode := "lines+markers", name := "Draw Invitations" },
           { x := ["2024-02"], y := [{ num := 7, den := 1 }], typ := "scatter", mode := "lines+markers", name := "Total(Mean) Candidates" }] ∧
    (∃ s1 s2, ([{ x := ["2024-02"], y := [intFrac 20], typ := "scatter", mode := "lines+markers", name := "Draw Invitations" },
        { x := ["2024-02"], y := [{ num := 7, den := 1 }], typ := "scatter", mode := "lines+markers", name := "Total(Mean) Candidates" }] : List DSeries) = [s1, s2] ∧
      s1.x = s2.x ∧
      s1.x = List.insertionSort strLe
        ((validMonths (drawSizeMaps [dsZeroMeanRec, dsPosMeanRec]).2).map (fun kv => kv.1)) ∧
      (∀ m : String, m ∈ s1.x ↔
        ∃ cs, alookup (drawSizeMaps [dsZeroMeanRec, dsPosMeanRec]).2 m = some cs ∧
          fracPos (meanOf cs) = true) ∧
      (∀ m cs, alookup (drawSizeMaps [dsZeroMeanRec, dsPosMeanRec]).2 m = some cs →
        (cs = [] ∨ (meanOf cs).num = 0) → m ∉ s1.x) ∧
      s1.y = s1.x.map
        (fun m => intFrac ((alookup (drawSizeMaps [dsZeroMeanRec, dsPosMeanRec]).1 m).getD 0))) :=
  ⟨rfl, claim_C6_draw_size_months [dsZeroMeanRec, dsPosMeanRec] _ rfl⟩

/-! ## Digit-string comparison agrees with numeric comparison -/

theorem digitsVal_def (cs : List Char) :
    digitsVal cs = cs.foldl (fun x c => x * 10 + (c.toNat - '0'.toNat)) 0 := rfl

theorem digitsVal_foldl_acc :
    ∀ (cs : List Char) (a : Nat),
      cs.foldl (fun x c => x * 10 + (c.toNat - '0'.toNat)) a
        = a * 10 ^ cs.length + digitsVal cs := by
  intro cs
  induction cs with
  | nil =>
    intro a
    simp [digitsVal_def]
  | cons c cs ih =>
    intro a
    have hcons : digitsVal (c :: cs)
        = (0 * 10 + (c.toNat - '0'.toNat)) * 10 ^ cs.length + digitsVal cs := by
      rw [digitsVal_def (c :: cs), List.foldl_cons, ih]
    rw [List.foldl_cons, ih, hcons, List.length_cons]
    ring

theorem digitsVal_cons (c : Char) (cs : List Char) :
    digitsVal (c :: cs) = (c.toNat - '0'.toNat) * 10 ^ cs.length + digitsVal cs := by
  rw [digitsVal_def (c :: cs), List.foldl_cons, digitsVal_foldl_acc]
  have h0 : (0 : Nat) * 10 + (c.toNat - '0'.toNat) = c.toNat - '0'.toNat := by omega
  rw [h0]

theorem digit_bounds {c : Char} (h : isDigitChar c = true) :
    '0'.toNat ≤ c.toNat ∧ c.toNat ≤ '9'.toNat := by
  unfold isDigitChar at h
  rcases Bool.and_eq_true_iff.mp h with ⟨h1, h2⟩
  exact ⟨of_decide_eq_true h1, of_decide_eq_true h2⟩

theorem digitsVal_lt_pow {cs : List Char} (h : allDigits cs = true) :
    digitsVal cs < 10 ^ cs.length := by
  induction cs with
  | nil => simp [digitsVal]
  | cons c cs ih =>
    unfold allDigits at h ih
    rw [List.all_cons, Bool.and_eq_true] at h
    have hd := digit_bounds h.1
    have hc : c.toNat - '0'.toNat ≤ 9 := by
      have : '0'.toNat = 48 := rfl
      have h9 : '9'.toNat = 57 := rfl
      omega
    have hrest := ih h.2
    rw [digitsVal_cons, List.length_cons, pow_succ]
    calc (c.toNat - '0'.toNat) * 10 ^ cs.length + digitsVal cs
        < (c.toNat - '0'.toNat) * 10 ^ cs.length + 10 ^ cs.length := by omega
      _ = (c.toNat - '0'.toNat + 1) * 10 ^ cs.length := by ring
      _ ≤ 10 * 10 ^ cs.length := Nat.mul_le_mul_right _ (by omega)
      _ = 10 ^ cs.length * 10 := by ring

theorem digitsVal_lt_of_listLtC :
    ∀ {xs ys : List Char}, xs.length = ys.length → allDigits xs = true →
      allDigits ys = true → listLtC xs ys = true → digitsVal xs < digitsVal ys := by
  intro xs
  induction xs with
  | nil =>
    intro ys hlen _ _ hlt
    cases ys with
    | nil => cases hlt
    | cons b bs => cases hlen
  | cons a as ih =>
    intro ys hlen hda hdb hlt
    cases ys with
    | nil => cases hlen
    | cons b bs =>
      unfold allDigits at hda hdb
      rw [List.all_cons, Bool.and_eq_true] at hda hdb
      have hlen' : as.length = bs.length := by
        rw [List.length_cons, List.length_cons] at hlen
        omega
      rw [digitsVal_cons, digitsVal_cons, hlen']
      rcases listLtC_cons_iff.mp hlt with hab | ⟨hab, hrec⟩
      · have hv : a.toNat < b.toNat := hab
        have hav := digit_bounds hda.1
        have hbv := digit_bounds hdb.1
        have hlt' : a.toNat - '0'.toNat + 1 ≤ b.toNat - '0'.toNat := by omega
        have hbound := digitsVal_lt_pow hda.2
        rw [hlen'] at hbound
        calc (a.toNat - '0'.toNat) * 10 ^ bs.length + digitsVal as
            < (a.toNat - '0'.toNat) * 10 ^ bs.length + 10 ^ bs.length := by omega
          _ = (a.toNat - '0'.toNat + 1) * 10 ^ bs.length := by ring
          _ ≤ (b.toNat - '0'.toNat) * 10 ^ bs.length := Nat.mul_le_mul_right _ hlt'
          _ ≤ (b.toNat - '0'.toNat) * 10 ^ bs.length + digitsVal bs := Nat.le_add_right _ _
      · subst hab
        have := ih hlen' hda.2 hdb.2 hrec
        omega

theorem listLtC_append_iff :
    ∀ {xs ys : List Char} (u v : List Char), xs.length = ys.length →
      (listLtC (xs ++ u) (ys ++ v) = true ↔
        listLtC xs ys = true ∨ (xs = ys ∧ listLtC u v = true)) := by
  intro xs
  induction xs with
  | nil =>
    intro ys u v hlen
    cases ys with
    | nil => simp [listLtC_nil_right]
    | cons b bs => cases hlen
  | cons a as ih =>
    intro ys u v hlen
    cases ys with
    | nil => cases hlen
    | cons b bs =>
      have hlen' : as.length = bs.length := by
        rw [List.length_cons, List.length_cons] at hlen
        omega
      rw [List.cons_append, List.cons_append, listLtC_cons_iff, listLtC_cons_iff,
        ih u v hlen', List.cons.injEq]
      constructor
      · rintro (h | ⟨hab, h | h⟩)
        · exact Or.inl (Or.inl h)
        · exact Or.inl (Or.inr ⟨hab, h⟩)
        · exact Or.inr ⟨⟨hab, h.1⟩, h.2⟩
      · rintro ((h | ⟨hab, h⟩) | ⟨⟨hab, he⟩, h⟩)
        · exact Or.inl h
        · exact Or.inr ⟨hab, Or.inl h⟩
        · exact Or.inr ⟨hab, Or.inr ⟨he, h⟩⟩

/-! ## Splitting padded strings -/

theorem digit_ne_dash {c : Char} (h : isDigitChar c = true) : c ≠ '-' := by
  intro he
  have h1 := (digit_bounds h).1
  rw [he] at h1
  exact absurd h1 (by decide)

theorem pySplit_no_sep (sep : Char) :
    ∀ l : List Char, (∀ c ∈ l, c ≠ sep) → pySplit sep l = [l] := by
  intro l
  induction l with
  | nil => intro _; rfl
  | cons c rest ih =>
    intro h
    unfold pySplit
    rw [if_neg (h c (List.mem_cons_self c rest))]
    rw [ih (fun c' hc' => h c' (List.mem_cons_of_mem c hc'))]

theorem pySplit_two_parts (sep : Char) :
    ∀ (ys ms : List Char), (∀ c ∈ ys, c ≠ sep) → (∀ c ∈ ms, c ≠ sep) →
      pySplit sep (ys ++ sep :: ms) = [ys, ms] := by
  intro ys
  induction ys with
  | nil =>
    intro ms _ hms
    show pySplit sep (sep :: ms) = [[], ms]
    unfold pySplit
    rw [if_pos rfl, pySplit_no_sep sep ms hms]
  | cons y ys ih =>
    intro ms hys hms
    rw [List.cons_append]
    unfold pySplit
    rw [if_neg (hys y (List.mem_cons_self y ys))]
    rw [ih ms (fun c hc => hys c (List.mem_cons_of_mem y hc)) hms]

theorem isPaddedYM_struct {s : String} (h : isPaddedYM s = true) :
    ∃ y1 y2 y3 y4 m1 m2 : Char,
      s.data = [y1, y2, y3, y4, '-', m1, m2] ∧
      allDigits [y1, y2, y3, y4] = true ∧ allDigits [m1, m2] = true ∧
      1 ≤ digitsVal [m1, m2] ∧ digitsVal [m1, m2] ≤ 12 := by
  unfold isPaddedYM at h
  split at h
  · rename_i y1 y2 y3 y4 m1 m2 hdata
    simp only [Bool.and_eq_true] at h
    refine ⟨y1, y2, y3, y4, m1, m2, hdata, ?_, ?_, ?_, ?_⟩
    · simp [allDigits, h.1.1.1.1.1.1.1, h.1.1.1.1.1.1.2, h.1.1.1.1.1.2, h.1.1.1.1.2]
    · simp [allDigits, h.1.1.1.2, h.1.1.2]
    · exact of_decide_eq_true h.1.2
    · exact of_decide_eq_true h.2
  · cases h

theorem parseYearMonth_of_padded {s : String} (h : isPaddedYM s = true) :
    ∃ ys ms : List Char, s.data = ys ++ '-' :: ms ∧
      ys.length = 4 ∧ ms.length = 2 ∧ allDigits ys = true ∧ allDigits ms = true ∧
      parseYearMonth s = some (digitsVal ys, digitsVal ms) := by
  rcases isPaddedYM_struct h with ⟨y1, y2, y3, y4, m1, m2, hdata, hdy, hdm, hm1, hm2⟩
  refine ⟨[y1, y2, y3, y4], [m1, m2], by rw [hdata]; rfl, rfl, rfl, hdy, hdm, ?_⟩
  unfold parseYearMonth
  have hys : ∀ c ∈ [y1, y2, y3, y4], c ≠ '-' := by
    intro c hc
    apply digit_ne_dash
    unfold allDigits at hdy
    exact List.all_eq_true.mp hdy c hc
  have hms : ∀ c ∈ [m1, m2], c ≠ '-' := by
    intro c hc
    apply digit_ne_dash
    unfold allDigits at hdm
    exact List.all_eq_true.mp hdm c hc
  have hsplit : pySplit '-' s.data = [[y1, y2, y3, y4], [m1, m2]] := by
    rw [hdata]
    exact pySplit_two_parts '-' [y1, y2, y3, y4] [m1, m2] hys hms
  rw [hsplit]
  simp [hdy, hdm, hm1, hm2]

/-- On zero-padded well-formed year-months, Python's string order agrees
with calendar order. -/
theorem padded_strLe_ymOrd {a b : String} (ha : isPaddedYM a = true)
    (hb : isPaddedYM b = true) (hle : strLe a b) : ymOrd a b := by
  rcases parseYearMonth_of_padded ha with ⟨ysa, msa, hda, hlya, hlma, hdya, hdma, hpa⟩
  rcases parseYearMonth_of_padded hb with ⟨ysb, msb, hdb, hlyb, hlmb, hdyb, hdmb, hpb⟩
  refine ⟨(digitsVal ysa, digitsVal msa), (digitsVal ysb, digitsVal msb), hpa, hpb, ?_⟩
  unfold strLe strLeB at hle
  rcases Bool.or_eq_true_iff.mp hle with hlt | heq
  · rw [hda, hdb] at hlt
    rcases (listLtC_append_iff ('-' :: msa) ('-' :: msb) (by omega)).mp hlt with hy | ⟨hy, hm⟩
    · have := digitsVal_lt_of_listLtC (by omega) hdya hdyb hy
      unfold ymLeB
      simp only [Bool.or_eq_true, decide_eq_true_eq]
      omega
    · rcases listLtC_cons_iff.mp hm with hdash | ⟨_, hm'⟩
      · exact absurd hdash (lt_irrefl '-')
      · have hmlt := digitsVal_lt_of_listLtC (by omega) hdma hdmb hm'
        have hyeq : digitsVal ysa = digitsVal ysb := by rw [hy]
        unfold ymLeB
        simp only [Bool.or_eq_true, Bool.and_eq_true, decide_eq_true_eq]
        omega
  · have hab : a = b := of_decide_eq_true heq
    subst hab
    have h1 : ysa = ysb ∧ msa = msb := by
      rw [hda] at hdb
      have := List.append_inj hdb (by omega)
      refine ⟨this.1, ?_⟩
      have h2 := this.2
      rw [List.cons.injEq] at h2
      exact h2.2
    rw [h1.1, h1.2]
    unfold ymLeB
    simp

/-! ## Provenance of the draw-size month keys -/

theorem drawSizeStep_snd_keys {st : List (String × Int) × List (String × List Int)}
    {rd : Record} {m : String} (h : m ∈ keysOf (drawSizeStep st rd).2) :
    m ∈ keysOf st.2 ∨ ∃ d, lookupField rd "drawDate" = some d ∧ m = yearMonth d := by
  revert h
  unfold drawSizeStep
  cases hd : lookupField rd "drawDate" with
  | none => exact fun h => Or.inl h
  | some drawDate =>
    simp only
    cases lookupField rd "drawSize" with
    | none => exact fun h => Or.inl h
    | some sizeStr =>
      simp only
      cases parseNumericValue sizeStr with
      | none => exact fun h => Or.inl h
      | some size =>
        simp only
        cases lookupField rd "dd18" with
        | none => exact fun h => Or.inl h
        | some candStr =>
          simp only
          cases parseNumericValue candStr with
          | none => exact fun h => Or.inl h
          | some v =>
            simp only
            intro h
            rcases mem_keysOf_appendCand.mp h with h | h
            · exact Or.inl h
            · exact Or.inr ⟨drawDate, rfl, h⟩

theorem drawSize_month_prov :
    ∀ (rounds : List Record) (st : List (String × Int) × List (String × List Int)),
      ∀ m, m ∈ keysOf (rounds.foldl drawSizeStep st).2 →
        m ∈ keysOf st.2 ∨
          ∃ rd ∈ rounds, ∃ d, lookupField rd "drawDate" = some d ∧ m = yearMonth d := by
  intro rounds
  induction rounds with
  | nil => intro st m h; exact Or.inl h
  | cons rd rest ih =>
    intro st m h
    rw [List.foldl_cons] at h
    rcases ih (drawSizeStep st rd) m h with h1 | ⟨rd', hrd', d, hd, hm⟩
    · rcases drawSizeStep_snd_keys h1 with h2 | ⟨d, hd, hm⟩
      · exact Or.inl h2
      · exact Or.inr ⟨rd, List.mem_cons_self rd rest, d, hd, hm⟩
    · exact Or.inr ⟨rd', List.mem_cons_of_mem rd hrd', d, hd, hm⟩

/-- Under the zero-padded-month hypothesis, the sorted month list of the
draw-size output is non-decreasing as calendar year-months. -/
theorem dsSortedMonths_pairwise_ym {rounds : List Record}
    (hpad : ∀ rd ∈ rounds, ∀ d, lookupField rd "drawDate" = some d →
      isPaddedYM (yearMonth d) = true) :
    (dsSortedMonths rounds).Pairwise ymOrd := by
  have hsorted : List.Pairwise strLe (dsSortedMonths rounds) :=
    List.sorted_insertionSort strLe _
  apply List.Pairwise.imp_of_mem ?_ hsorted
  intro a b ha hb hle
  have hmem : ∀ m, m ∈ dsSortedMonths rounds → isPaddedYM m = true := by
    intro m hm
    have hmv : m ∈ (dsValid rounds).map (fun kv => kv.1) := by
      unfold dsSortedMonths at hm
      exact (List.mem_insertionSort strLe).mp hm
    have hmc : m ∈ keysOf (drawSizeMaps rounds).2 :=
      List.Sublist.mem hmv (keysOf_validMonths_sublist (drawSizeMaps rounds).2)
    have hprov := drawSize_month_prov rounds ([], []) m hmc
    rcases hprov with h | ⟨rd, hrd, d, hd, hm'⟩
    · cases h
    · rw [hm']
      exact hpad rd hrd d hd
  exact padded_strLe_ymOrd (hmem a ha) (hmem b hb) hle

/-! ## The sorted score/pool outputs -/

/-- Every series of a sorted, key-ordered output whose x entries all parse
has equal-length x/y and chronologically non-decreasing x. -/
theorem orderedOutput_series_facts {acc m' : SMap} {out : SMap}
    (hsort : sortDataByDate acc = .ok m') (hout : out = orderByKey m')
    {k : String} {s : SeriesData} (hmem : (k, s) ∈ out)
    (hall : ∀ d ∈ s.x, (parseDate d).isSome) :
    s.x.length = s.y.length ∧ s.x.Pairwise dateOrd := by
  subst hout
  rcases mem_orderByKey_iff.mp hmem with ⟨hk, hs⟩
  rcases alookup_isSome_of_mem_keys hk with ⟨s₀', hlook⟩
  rw [hlook] at hs
  have hmem' : (k, s) ∈ m' := by
    rw [hs]
    exact alookup_mem hlook
  rcases sortPairs_mem (sortData_forall₂ hsort) hmem' with ⟨s₀, _, hsort1⟩
  cases hp : parseAll s₀.x with
  | none =>
    have hfix : sortOneSeries s₀ = .ok s₀ := sortOne_parse_fail hp
    rw [hfix] at hsort1
    have hss : s₀ = s := by
      cases hsort1
      rfl
    rcases parseAll_none_iff.mp hp with ⟨d, hd, hdn⟩
    have := hall d (by rw [← hss]; exact hd)
    rw [hdn] at this
    cases this
  | some ds => exact sortOne_ok_facts hp hsort1

/-- C2 counterexample: on two records whose dates both parse (so no
date-parse failure can occur anywhere), the shared x axis of the
draw-size output is ["2024-02", "2024-1"], which is decreasing as
calendar dates (February before January 2024): drawing months are sorted
as strings, not as dates. -/
theorem claim_C2_counterexample :
    parseDate "2024-1-05" = some (2024, 1, 5) ∧
    parseDate "2024-02-10" = some (2024, 2, 10) ∧
    drawSizeTrends [unpaddedRec1, unpaddedRec2] =
      .ok [{ x := ["2024-02", "2024-1"], y := [intFrac 20, intFrac 10], typ := "scatter", mode := "lines+markers", name := "Draw Invitations" },
           { x := ["2024-02", "2024-1"], y := [{ num := 7, den := 1 }, { num := 5, den := 1 }], typ := "scatter", mode := "lines+markers", name := "Total(Mean) Candidates" }] ∧
    parseYearMonth "2024-02" = some (2024, 2) ∧
    parseYearMonth "2024-1" = some (2024, 1) ∧
    ymLeB (2024, 2) (2024, 1) = false :=
  ⟨rfl, rfl, rfl, rfl, rfl, rfl⟩

/-- C2 amended: (a) every series of a successful score- or pool-trend
output, all of whose x entries parse as dates, has len(x) = len(y) and x
non-decreasing as calendar dates; (b) the two draw-size series always
have len(x) = len(y) and share their x, which is non-decreasing as
calendar dates provided every record date carries a zero-padded
two-digit month. -/
theorem claim_C2_amended :
    (∀ (bs : Int) (rounds : List Record) (out : SMap) (k : String) (s : SeriesData),
      (processCrsTrends bs rounds = .ok out ∨ processPoolTrends bs rounds = .ok out) →
      (k, s) ∈ out → (∀ d ∈ s.x, (parseDate d).isSome) →
      s.x.length = s.y.length ∧ s.x.Pairwise dateOrd) ∧
    (∀ (rounds : List Record) (out : List DSeries), drawSizeTrends rounds = .ok out →
      ∃ s1 s2, out = [s1, s2] ∧ s1.x = s2.x ∧
        s1.x.length = s1.y.length ∧ s2.x.length = s2.y.length ∧
        ((∀ rd ∈ rounds, ∀ d, lookupField rd "drawDate" = some d →
            isPaddedYM (yearMonth d) = true) →
          s1.x.Pairwise ymOrd)) := by
  constructor
  · intro bs rounds out k s h hmem hall
    rcases h with h | h
    · rcases processCrs_ok_inv h with ⟨acc, m', _, hsort, hout⟩
      exact orderedOutput_series_facts hsort hout hmem hall
    · rcases processPool_ok_inv h with ⟨acc, m', _, hsort, hout⟩
      exact orderedOutput_series_facts hsort hout hmem hall
  · intro rounds out h
    rw [drawSizeTrends_ok rounds] at h
    have hout := (Except.ok.injEq _ _).mp h.symm
    refine ⟨_, _, hout, rfl, by simp, by simp, ?_⟩
    intro hpad
    exact dsSortedMonths_pairwise_ym hpad

/-- Witness for the amended C2: part (a) at the end-to-end example's
output series, part (b) at two padded-date records. -/
theorem claim_C2_amended_witness :
    ((["2024-01-01", "2024-02-01"] : List String).length = ([600, 500] : List Int).length ∧
      (["2024-01-01", "2024-02-01"] : List String).Pairwise dateOrd) ∧
    ∃ s1 s2 : DSeries,
      ([{ x := ["2024-02"], y := [intFrac 20], typ := "scatter", mode := "lines+markers", name := "Draw Invitations" },
        { x := ["2024-02"], y := [{ num := 7, den := 1 }], typ := "scatter", mode := "lines+markers", name := "Total(Mean) Candidates" }] : List DSeries) = [s1, s2] ∧
      s1.x = s2.x ∧ s1.x.length = s1.y.length ∧ s2.x.length = s2.y.length ∧
      s1.x.Pairwise ymOrd := by
  constructor
  · exact claim_C2_amended.1 1 [sampleCrsA, sampleCrsB]
      [("General", { x := ["2024-01-01", "2024-02-01"], y := [600, 500], typ := "scatter", mode := "lines+markers", name := "General" })]
      "General"
      { x := ["2024-01-01", "2024-02-01"], y := [600, 500], typ := "scatter", mode := "lines+markers", name := "General" }
      (Or.inl rfl) (List.mem_singleton.mpr rfl) (by decide)
  · have hpad : ∀ rd ∈ ([dsZeroMeanRec, dsPosMeanRec] : List Record), ∀ d,
        lookupField rd "drawDate" = some d → isPaddedYM (yearMonth d) = true := by
      intro rd hrd d hd
      rcases List.mem_cons.mp hrd with he | hrd'
      · subst he
        have hd' : some "2024-01-05" = some d := hd
        cases hd'
        decide
      · rcases List.mem_cons.mp hrd' with he | hrd''
        · subst he
          have hd' : some "2024-02-05" = some d := hd
          cases hd'
          decide
        · cases hrd''
    rcases claim_C2_amended.2 [dsZeroMeanRec, dsPosMeanRec] _ rfl with
      ⟨s1, s2, hout, hx, h1, h2, h3⟩
    exact ⟨s1, s2, hout, hx, h1, h2, h3 hpad⟩

end ImmigrationProc
